import Mathlib

/-! Verification development for `wallet/privatesend_client.h` and
`wallet/psctwallet.cpp`.

The first part embeds the pending-request record `CPendingDsaRequest` and the
configuration state of `CPrivateSendClient`.  The second part embeds
`FillPSCT`.  Types and functions that the two files only use (they are declared
in other headers) are taken as parameters.
-/

namespace PrivateSend

/-! ## Constants of `privatesend_client.h` -/

def DENOMS_COUNT_MAX : Int := 100
def MIN_PRIVATESEND_ROUNDS : Int := 2
def MIN_PRIVATESEND_AMOUNT : Int := 2
def MIN_PRIVATESEND_LIQUIDITY : Int := 0
def MAX_PRIVATESEND_ROUNDS : Int := 16
def MAX_PRIVATESEND_LIQUIDITY : Int := 100
def DEFAULT_PRIVATESEND_ROUNDS : Int := 2
def DEFAULT_PRIVATESEND_AMOUNT : Int := 1000
def DEFAULT_PRIVATESEND_LIQUIDITY : Int := 0
def DEFAULT_PRIVATESEND_MULTISESSION : Bool := false
def PRIVATESEND_KEYS_THRESHOLD_WARNING : Int := 100
def PRIVATESEND_KEYS_THRESHOLD_STOP : Int := 50

/-- Largest value of a C++ `int` (`std::numeric_limits<int>::max()`). -/
def INT_MAX : Int := 2147483647

/-- Two's-complement reduction of a mathematical integer to `int64_t`. -/
def wrapInt64 (x : Int) : Int := (x + 2 ^ 63) % 2 ^ 64 - 2 ^ 63

/-! ## `CPendingDsaRequest`

`CService` and `CDarksendAccept` are declared outside the two files; they are
the type parameters `Addr` and `Dsa`.  Their `operator==` is the equality of the
parameter type and their default constructor is its `default` element. -/

/-- The three data members of `CPendingDsaRequest`. -/
structure CPendingDsaRequest (Addr Dsa : Type) where
  addr : Addr
  dsa : Dsa
  nTimeCreated : Int

namespace CPendingDsaRequest

variable {Addr Dsa : Type}

/-- The private constant `TIMEOUT`. -/
def TIMEOUT : Int := 15

/-- The default constructor `CPendingDsaRequest()`. -/
def mk0 [Inhabited Addr] [Inhabited Dsa] : CPendingDsaRequest Addr Dsa :=
  { addr := default, dsa := default, nTimeCreated := 0 }

/-- The constructor `CPendingDsaRequest(addr_, dsa_)`; `now` is the value that
`GetTime()` returns in its body. -/
def mk2 (now : Int) (addr_ : Addr) (dsa_ : Dsa) : CPendingDsaRequest Addr Dsa :=
  { addr := addr_, dsa := dsa_, nTimeCreated := now }

/-- The accessor `GetAddr`. -/
def GetAddr (r : CPendingDsaRequest Addr Dsa) : Addr := r.addr

/-- The accessor `GetDSA`. -/
def GetDSA (r : CPendingDsaRequest Addr Dsa) : Dsa := r.dsa

/-- The method `IsExpired`: `GetTime() - nTimeCreated > TIMEOUT`, the
subtraction being an `int64_t` one; `now` is the value of `GetTime()`. -/
def IsExpired (now : Int) (r : CPendingDsaRequest Addr Dsa) : Bool :=
  decide (wrapInt64 (now - r.nTimeCreated) > TIMEOUT)

/-- The friend `operator==`: compares address and payload, not the time. -/
def eq [DecidableEq Addr] [DecidableEq Dsa] (a b : CPendingDsaRequest Addr Dsa) : Bool :=
  decide (a.addr = b.addr) && decide (a.dsa = b.dsa)

/-- The friend `operator!=`. -/
def ne [DecidableEq Addr] [DecidableEq Dsa] (a b : CPendingDsaRequest Addr Dsa) : Bool :=
  !(eq a b)

/-- The conversion `explicit operator bool`: `*this != CPendingDsaRequest()`. -/
def toBool [DecidableEq Addr] [DecidableEq Dsa] [Inhabited Addr] [Inhabited Dsa]
    (r : CPendingDsaRequest Addr Dsa) : Bool :=
  ne r mk0

end CPendingDsaRequest

/-! ## `CPrivateSendClient` -/

/-- The class `COutPoint` as far as the sources name its members. -/
structure COutPoint where
  hash : Nat
  n : Nat
deriving DecidableEq, Repr

/-- The class `CKeyHolderStorage`: the vector of reserved keys (the mutex that
guards it has no state of its own). -/
structure CKeyHolderStorage (RK : Type) where
  storage : List RK

/-- The data members of `CPrivateSendClient`, in declaration order.  `base` is
the `CPrivateSendBase` sub-object; `W`, `M`, `T` stand for `CWallet*`,
`masternode_info_t` and `CMutableTransaction`. -/
structure CPrivateSendClient (B W M T RK Addr Dsa : Type) where
  base : B
  m_wallet : W
  vecMasternodesUsed : List COutPoint
  vecDenominationsSkipped : List Int
  vecOutPointLocked : List COutPoint
  nCachedLastSuccessBlock : Int
  nMinBlocksToWait : Int
  nCachedBlockHeight : Int
  nEntriesCount : Int
  fLastEntryAccepted : Bool
  strLastMessage : String
  strAutoDenomResult : String
  infoMixingMasternode : M
  txMyCollateral : T
  pendingDsaRequest : CPendingDsaRequest Addr Dsa
  keyHolderStorage : CKeyHolderStorage RK
  nPrivateSendRounds : Int
  nPrivateSendAmount : Int
  nLiquidityProvider : Int
  fEnablePrivateSend : Bool
  fPrivateSendMultiSession : Bool
  nCachedNumBlocks : Int
  fCreateAutoBackups : Bool

namespace CPrivateSendClient

variable {B W M T RK Addr Dsa : Type}

/-- The constructor `CPrivateSendClient(pwallet)`.

`raw` is the object before the constructor runs: it supplies the members the
initialiser list does not name and that have no known default (the base
sub-object, the masternode info, and the three scalars left indeterminate).
`SetNull` is called in the constructor body; its definition is not part of the
header, so it is a parameter. -/
def ctor [Inhabited T] [Inhabited Addr] [Inhabited Dsa]
    (SetNull : CPrivateSendClient B W M T RK Addr Dsa → CPrivateSendClient B W M T RK Addr Dsa)
    (raw : CPrivateSendClient B W M T RK Addr Dsa) (pwallet : W) :
    CPrivateSendClient B W M T RK Addr Dsa :=
  SetNull
    { raw with
      m_wallet := pwallet
      vecMasternodesUsed := []
      vecDenominationsSkipped := []
      vecOutPointLocked := []
      nCachedLastSuccessBlock := 0
      nMinBlocksToWait := 1
      strLastMessage := ""
      strAutoDenomResult := ""
      txMyCollateral := default
      pendingDsaRequest := CPendingDsaRequest.mk0
      keyHolderStorage := { storage := [] }
      nPrivateSendRounds := DEFAULT_PRIVATESEND_ROUNDS
      nPrivateSendAmount := DEFAULT_PRIVATESEND_AMOUNT
      nLiquidityProvider := DEFAULT_PRIVATESEND_LIQUIDITY
      fEnablePrivateSend := false
      fPrivateSendMultiSession := DEFAULT_PRIVATESEND_MULTISESSION
      nCachedNumBlocks := INT_MAX
      fCreateAutoBackups := true }

/-- The method `ClearSkippedDenominations`. -/
def ClearSkippedDenominations (s : CPrivateSendClient B W M T RK Addr Dsa) :
    CPrivateSendClient B W M T RK Addr Dsa :=
  { s with vecDenominationsSkipped := [] }

/-- The method `SetMinBlocksToWait`. -/
def SetMinBlocksToWait (nMinBlocksToWaitIn : Int) (s : CPrivateSendClient B W M T RK Addr Dsa) :
    CPrivateSendClient B W M T RK Addr Dsa :=
  { s with nMinBlocksToWait := nMinBlocksToWaitIn }

end CPrivateSendClient

/-- The two state-changing methods that the header defines inline. -/
inductive ClientOp where
  | SetMinBlocksToWait (nMinBlocksToWaitIn : Int)
  | ClearSkippedDenominations
deriving DecidableEq, Repr

/-- Run one inline method on a client. -/
def ClientOp.run {B W M T RK Addr Dsa : Type} :
    ClientOp → CPrivateSendClient B W M T RK Addr Dsa → CPrivateSendClient B W M T RK Addr Dsa
  | .SetMinBlocksToWait n, s => s.SetMinBlocksToWait n
  | .ClearSkippedDenominations, s => s.ClearSkippedDenominations

/-- Run a sequence of inline methods, first element first. -/
def runOps {B W M T RK Addr Dsa : Type} (ops : List ClientOp)
    (s : CPrivateSendClient B W M T RK Addr Dsa) : CPrivateSendClient B W M T RK Addr Dsa :=
  ops.foldl (fun st op => op.run st) s

/-- The three configuration bounds; `maxAmount` is `MAX_PRIVATESEND_AMOUNT`
(`MAX_MONEY / COIN`, both declared elsewhere). -/
def ConfigInBounds {B W M T RK Addr Dsa : Type} (maxAmount : Int)
    (s : CPrivateSendClient B W M T RK Addr Dsa) : Prop :=
  (MIN_PRIVATESEND_ROUNDS ≤ s.nPrivateSendRounds ∧ s.nPrivateSendRounds ≤ MAX_PRIVATESEND_ROUNDS) ∧
  (MIN_PRIVATESEND_LIQUIDITY ≤ s.nLiquidityProvider ∧
    s.nLiquidityProvider ≤ MAX_PRIVATESEND_LIQUIDITY) ∧
  (MIN_PRIVATESEND_AMOUNT ≤ s.nPrivateSendAmount ∧ s.nPrivateSendAmount ≤ maxAmount)

/-- A `SetNull` that resets the client's per-round members only; used to
instantiate the `SetNull` parameter of the constructor. -/
def resetRound {B W M T RK Addr Dsa : Type} [Inhabited Addr] [Inhabited Dsa]
    (s : CPrivateSendClient B W M T RK Addr Dsa) : CPrivateSendClient B W M T RK Addr Dsa :=
  { s with
    nEntriesCount := 0
    fLastEntryAccepted := false
    pendingDsaRequest := CPendingDsaRequest.mk0 }

/-- An all-zero object to stand for the storage a constructor starts from. -/
def rawClient : CPrivateSendClient Unit Nat Unit Unit Unit Nat Nat :=
  { base := (), m_wallet := 0, vecMasternodesUsed := [], vecDenominationsSkipped := [7],
    vecOutPointLocked := [], nCachedLastSuccessBlock := 0, nMinBlocksToWait := 0,
    nCachedBlockHeight := 0, nEntriesCount := 5, fLastEntryAccepted := true,
    strLastMessage := "", strAutoDenomResult := "", infoMixingMasternode := (),
    txMyCollateral := (), pendingDsaRequest := { addr := 0, dsa := 0, nTimeCreated := 0 },
    keyHolderStorage := { storage := [] }, nPrivateSendRounds := 0, nPrivateSendAmount := 0,
    nLiquidityProvider := 0, fEnablePrivateSend := false, fPrivateSendMultiSession := false,
    nCachedNumBlocks := 0, fCreateAutoBackups := false }

/-! ## `FillPSCT` (`wallet/psctwallet.cpp`)

The transaction, wallet and PSCT classes are declared in other headers.  The
members that `FillPSCT` names are fields of the structures below; what else an
input carries is the field `rest` of an arbitrary type `R`, a PSCT output is an
arbitrary type `O`, `SignatureData` an arbitrary type `S`, and the key store of
the wallet an arbitrary type `K`.  A `uint256` is a natural number. -/

/-- The enumerators of `TransactionError` that `FillPSCT` returns. -/
inductive TransactionError where
  | OK
  | INVALID_PSCT
  | SIGHASH_MISMATCH
deriving DecidableEq, Repr

/-- A script, as its bytes. -/
abbrev CScript := List Nat

/-- The class `CTxOut`. -/
structure CTxOut where
  nValue : Int
  scriptPubKey : CScript
deriving DecidableEq, Repr

/-- The class `CTxIn`. -/
structure CTxIn where
  prevout : COutPoint
  scriptSig : CScript
  nSequence : Nat
deriving DecidableEq, Repr

/-- The class `CMutableTransaction`. -/
structure CMutableTransaction where
  vin : List CTxIn
  vout : List CTxOut
  nVersion : Int
  nLockTime : Nat
deriving DecidableEq, Repr

/-- The class `CTransaction`, the pointee of a `CTransactionRef`. -/
structure CTransaction where
  vin : List CTxIn
  vout : List CTxOut
  nVersion : Int
  nLockTime : Nat
deriving DecidableEq, Repr

/-- A `CTransactionRef` is a shared pointer; `none` is the null pointer. -/
abbrev CTransactionRef := Option CTransaction

/-- The class `CWalletTx`, of which `FillPSCT` reads the member `tx`. -/
structure CWalletTx where
  tx : CTransactionRef
deriving DecidableEq, Repr

/-- The class `CWallet`: `mapWallet` as its lookup function (`find` returning
`end()` is `none`), and the key material that only the signer looks at. -/
structure CWallet (K : Type) where
  mapWallet : Nat → Option CWalletTx
  keys : K

/-- The class `PSCTInput`. -/
structure PSCTInput (R : Type) where
  non_witness_utxo : CTransactionRef
  witness_utxo : CTxOut
  sighash_type : Int
  rest : R
deriving DecidableEq, Repr

/-- The class `PartiallySignedTransaction`.  `FillPSCT` dereferences `tx`
unconditionally, so the structure carries the transaction itself. -/
structure PartiallySignedTransaction (R O : Type) where
  tx : CMutableTransaction
  inputs : List (PSCTInput R)
  outputs : List O
deriving DecidableEq, Repr

/-- The arguments of the constructor `HidingSigningProvider(provider,
hide_secret, hide_origin)`. -/
structure HidingSigningProvider (K : Type) where
  provider : CWallet K
  hide_secret : Bool
  hide_origin : Bool

/-- The arguments of the constructor `MutableTransactionSignatureCreator(txTo,
nIn, amount, nHashType)`. -/
structure MutableTransactionSignatureCreator where
  txTo : CMutableTransaction
  nIn : Nat
  amount : Int
  nHashType : Int
deriving DecidableEq, Repr

/-- The functions that `FillPSCT` calls and that are defined in other
translation units.  `SignPSCTInput` receives the whole PSCT by reference and
returns its flag together with the PSCT it leaves behind; `sigdata0` is a
default-constructed `SignatureData`. -/
structure Externals (K R O S : Type) where
  PSCTInputSigned : PSCTInput R → Bool
  IsSane : PSCTInput R → Bool
  IsNull : CTxOut → Bool
  SignPSCTInput : HidingSigningProvider K → PartiallySignedTransaction R O → Nat → Int →
    Bool × PartiallySignedTransaction R O
  sigdata0 : S
  FillSignatureData : O → S → S
  ProduceSignature : HidingSigningProvider K → MutableTransactionSignatureCreator → CScript →
    S → Bool × S
  FromSignatureData : O → S → O

/-- How a call of `FillPSCT` ends: it returns a `TransactionError`, or one of
its `.at(i)` accesses throws `std::out_of_range`. -/
inductive Outcome where
  | returned (e : TransactionError)
  | out_of_range
deriving DecidableEq, Repr

/-- One call of `SignPSCTInput`: the index and the PSCT it was handed, and the
flag it returned. -/
structure SignerCall (R O : Type) where
  index : Nat
  psctx : PartiallySignedTransaction R O
  result : Bool
deriving DecidableEq, Repr

/-- The variables of a running `FillPSCT`: the two by-reference arguments
`psctx` and `complete`, and three ghost fields that record the number of
iterations begun in each loop and the signer calls made so far. -/
structure FillState (R O : Type) where
  psctx : PartiallySignedTransaction R O
  complete : Bool
  inputIters : Nat
  outputIters : Nat
  signerCalls : List (SignerCall R O)
deriving DecidableEq, Repr

/-- The state `FillPSCT` leaves behind, and how it ended. -/
structure FillResult (R O : Type) extends FillState R O where
  outcome : Outcome
deriving DecidableEq, Repr

section FillPSCT

variable {K R O S : Type}

/-- Lines 25 to 35: an input with no UTXO takes the wallet transaction of the
previous output when the wallet has it. -/
def fillUtxo (ext : Externals K R O S) (pwallet : CWallet K) (txin : CTxIn)
    (input : PSCTInput R) : PSCTInput R :=
  if input.non_witness_utxo.isNone = true ∧ ext.IsNull input.witness_utxo = true then
    match pwallet.mapWallet txin.prevout.hash with
    | some wtx => { input with non_witness_utxo := wtx.tx }
    | none => input
  else input

/-- Lines 46 to 57, the loop over the outputs.  The first argument is
`vout.size() - i`; the body writes `psctx.outputs` only, so that number falls by
one in each iteration.  The loop ends by returning `OK`. -/
def outputLoop (ext : Externals K R O S) (pwallet : CWallet K) (bip32derivs : Bool) :
    Nat → Nat → FillState R O → FillResult R O
  | 0, _, st => { st with outcome := .returned .OK }
  | todo + 1, i, st =>
    let st1 := { st with outputIters := st.outputIters + 1 }
    match st.psctx.tx.vout[i]? with
    | none => { st1 with outcome := .out_of_range }
    | some out =>
      match st.psctx.outputs[i]? with
      | none => { st1 with outcome := .out_of_range }
      | some psct_out =>
        let sigdata := ext.FillSignatureData psct_out ext.sigdata0
        let creator : MutableTransactionSignatureCreator :=
          { txTo := st.psctx.tx, nIn := 0, amount := out.nValue, nHashType := 1 }
        let produced := ext.ProduceSignature
          { provider := pwallet, hide_secret := true, hide_origin := !bip32derivs }
          creator out.scriptPubKey sigdata
        let psct_out1 := ext.FromSignatureData psct_out produced.2
        outputLoop ext pwallet bip32derivs todo (i + 1)
          { st1 with psctx := { st.psctx with outputs := st.psctx.outputs.set i psct_out1 } }

/-- Lines 12 to 43, the loop over the inputs, followed by the output loop.
`SignPSCTInput` may in principle change `psctx.tx`, so the number of iterations
is not bounded in advance: the first argument is fuel, and `none` means that it
ran out.  `vin[i]?` being `none` is the loop test `i < vin.size()` failing. -/
def inputLoop (ext : Externals K R O S) (pwallet : CWallet K) (sighash_type : Int)
    (sign bip32derivs : Bool) : Nat → Nat → FillState R O → Option (FillResult R O)
  | 0, _, _ => none
  | fuel + 1, i, st =>
    match st.psctx.tx.vin[i]? with
    | none => some (outputLoop ext pwallet bip32derivs st.psctx.tx.vout.length 0 st)
    | some txin =>
      let st1 := { st with inputIters := st.inputIters + 1 }
      match st.psctx.inputs[i]? with
      | none => some { st1 with outcome := .out_of_range }
      | some input =>
        if ext.PSCTInputSigned input = true then
          inputLoop ext pwallet sighash_type sign bip32derivs fuel (i + 1) st1
        else if ext.IsSane input = false then
          some { st1 with outcome := .returned .INVALID_PSCT }
        else
          let input1 := fillUtxo ext pwallet txin input
          let psctx1 := { st.psctx with inputs := st.psctx.inputs.set i input1 }
          if sign = true ∧ 0 < input1.sighash_type ∧ input1.sighash_type ≠ sighash_type then
            some { st1 with psctx := psctx1, outcome := .returned .SIGHASH_MISMATCH }
          else
            let signed := ext.SignPSCTInput
              { provider := pwallet, hide_secret := !sign, hide_origin := !bip32derivs }
              psctx1 i sighash_type
            inputLoop ext pwallet sighash_type sign bip32derivs fuel (i + 1)
              { st1 with
                psctx := signed.2
                complete := st.complete && signed.1
                signerCalls := st.signerCalls ++ [{ index := i, psctx := psctx1, result := signed.1 }] }

/-- The function `FillPSCT`.  The by-reference arguments `psctx` and `complete`
are inputs here and fields of the result; line 11 overwrites `complete` with
`true` before anything reads it.  `fuel` bounds the iterations of the input
loop.  The wallet lock of line 9 has no counterpart in a sequential model, and
the loop indices are natural numbers (a vector of 2^32 transaction inputs is
out of reach). -/
def FillPSCT (ext : Externals K R O S) (fuel : Nat) (pwallet : CWallet K)
    (psctx : PartiallySignedTransaction R O) (complete : Bool) (sighash_type : Int)
    (sign bip32derivs : Bool) : Option (FillResult R O) :=
  let complete := (fun _ => true) complete
  inputLoop ext pwallet sighash_type sign bip32derivs fuel 0
    { psctx := psctx, complete := complete, inputIters := 0, outputIters := 0, signerCalls := [] }

/-- The assumption on the signer: a call on index `i` leaves the transaction,
the outputs, the number of inputs and every input other than `i` as they were. -/
def SignerLocal (ext : Externals K R O S) : Prop :=
  ∀ (prov : HidingSigningProvider K) (p : PartiallySignedTransaction R O) (i : Nat) (sh : Int),
    (ext.SignPSCTInput prov p i sh).2.tx = p.tx ∧
    (ext.SignPSCTInput prov p i sh).2.outputs = p.outputs ∧
    (ext.SignPSCTInput prov p i sh).2.inputs.length = p.inputs.length ∧
    ∀ j, j ≠ i → (ext.SignPSCTInput prov p i sh).2.inputs[j]? = p.inputs[j]?

/-- The test of line 38 on one input. -/
def SighashMismatch (sign : Bool) (sighash_type : Int) (input : PSCTInput R) : Prop :=
  sign = true ∧ 0 < input.sighash_type ∧ input.sighash_type ≠ sighash_type

instance (sign : Bool) (sighash_type : Int) (input : PSCTInput R) :
    Decidable (SighashMismatch sign sighash_type input) := by
  unfold SighashMismatch; infer_instance

/-- An input that is not yet signed and that makes `FillPSCT` return an error
when the loop reaches it. -/
def Offending (ext : Externals K R O S) (sign : Bool) (sighash_type : Int)
    (input : PSCTInput R) : Prop :=
  ext.PSCTInputSigned input = false ∧
    (ext.IsSane input = false ∨ SighashMismatch sign sighash_type input)

instance (ext : Externals K R O S) (sign : Bool) (sighash_type : Int) (input : PSCTInput R) :
    Decidable (Offending ext sign sighash_type input) := by
  unfold Offending; infer_instance

/-- The error that an offending input produces. -/
def errorOf (ext : Externals K R O S) (input : PSCTInput R) : TransactionError :=
  if ext.IsSane input = false then .INVALID_PSCT else .SIGHASH_MISMATCH

end FillPSCT

section FillPSCTScan

variable {K R O S : Type}

/-- The input loop run over a given list of transaction inputs, the ones from
index `i` on, instead of re-reading `psctx.tx->vin` in every iteration.  It
agrees with `inputLoop` whenever the signer leaves `psctx.tx` alone and the fuel
suffices (`inputLoop_eq_inputScan`), and is what the proofs reason about. -/
def inputScan (ext : Externals K R O S) (pwallet : CWallet K) (sighash_type : Int)
    (sign bip32derivs : Bool) : List CTxIn → Nat → FillState R O → FillResult R O
  | [], _, st => outputLoop ext pwallet bip32derivs st.psctx.tx.vout.length 0 st
  | txin :: rest, i, st =>
    let st1 := { st with inputIters := st.inputIters + 1 }
    match st.psctx.inputs[i]? with
    | none => { st1 with outcome := .out_of_range }
    | some input =>
      if ext.PSCTInputSigned input = true then
        inputScan ext pwallet sighash_type sign bip32derivs rest (i + 1) st1
      else if ext.IsSane input = false then
        { st1 with outcome := .returned .INVALID_PSCT }
      else
        let input1 := fillUtxo ext pwallet txin input
        let psctx1 := { st.psctx with inputs := st.psctx.inputs.set i input1 }
        if sign = true ∧ 0 < input1.sighash_type ∧ input1.sighash_type ≠ sighash_type then
          { st1 with psctx := psctx1, outcome := .returned .SIGHASH_MISMATCH }
        else
          let signed := ext.SignPSCTInput
            { provider := pwallet, hide_secret := !sign, hide_origin := !bip32derivs }
            psctx1 i sighash_type
          inputScan ext pwallet sighash_type sign bip32derivs rest (i + 1)
            { st1 with
              psctx := signed.2
              complete := st.complete && signed.1
              signerCalls := st.signerCalls ++ [{ index := i, psctx := psctx1, result := signed.1 }] }

/-- The state once an iteration of the input loop has begun. -/
def begun (st : FillState R O) : FillState R O :=
  { st with inputIters := st.inputIters + 1 }

/-- The PSCT after lines 25 to 35 ran on input `i`. -/
def withUtxo (ext : Externals K R O S) (pwallet : CWallet K) (txin : CTxIn)
    (input : PSCTInput R) (i : Nat) (p : PartiallySignedTransaction R O) :
    PartiallySignedTransaction R O :=
  { p with inputs := p.inputs.set i (fillUtxo ext pwallet txin input) }

/-- The state after line 42 ran on input `i`. -/
def afterSign (ext : Externals K R O S) (pwallet : CWallet K) (sighash_type : Int)
    (sign bip32derivs : Bool) (txin : CTxIn) (input : PSCTInput R) (i : Nat)
    (st : FillState R O) : FillState R O :=
  { psctx := (ext.SignPSCTInput
      { provider := pwallet, hide_secret := !sign, hide_origin := !bip32derivs }
      (withUtxo ext pwallet txin input i st.psctx) i sighash_type).2
    complete := st.complete && (ext.SignPSCTInput
      { provider := pwallet, hide_secret := !sign, hide_origin := !bip32derivs }
      (withUtxo ext pwallet txin input i st.psctx) i sighash_type).1
    inputIters := st.inputIters + 1
    outputIters := st.outputIters
    signerCalls := st.signerCalls ++
      [{ index := i, psctx := withUtxo ext pwallet txin input i st.psctx,
         result := (ext.SignPSCTInput
           { provider := pwallet, hide_secret := !sign, hide_origin := !bip32derivs }
           (withUtxo ext pwallet txin input i st.psctx) i sighash_type).1 }] }

/-- Whether the list has an input at index `j` that is not yet signed. -/
def unsignedAt (ext : Externals K R O S) (inputs : List (PSCTInput R)) (j : Nat) : Bool :=
  match inputs[j]? with
  | some inp => !ext.PSCTInputSigned inp
  | none => false

/-- What is expected of a signer call, relative to the PSCT `p0` that `FillPSCT`
received: its index names a transaction input and an input of `p0` that is not
signed, is sane and passes the sighash test, and the PSCT handed to the signer
has, at that index, that input after the UTXO fill. -/
def CallFilled (ext : Externals K R O S) (pwallet : CWallet K) (sign : Bool) (sh : Int)
    (p0 : PartiallySignedTransaction R O) (c : SignerCall R O) : Prop :=
  ∃ txin inp, p0.tx.vin[c.index]? = some txin ∧ p0.inputs[c.index]? = some inp ∧
    ext.PSCTInputSigned inp = false ∧ ext.IsSane inp = true ∧ ¬ SighashMismatch sign sh inp ∧
    c.psctx.inputs[c.index]? = some (fillUtxo ext pwallet txin inp)

/-- The state in which `FillPSCT` enters its input loop. -/
def initState (psctx : PartiallySignedTransaction R O) : FillState R O :=
  { psctx := psctx, complete := true, inputIters := 0, outputIters := 0, signerCalls := [] }

end FillPSCTScan

/-! ## A concrete instance of the external functions

Used to evaluate `FillPSCT` on concrete transactions.  The extra field of an
input is a flag "finalised"; an input is sane when it does not carry both
UTXOs; the signer finalises an input that has a non-witness UTXO and records the
sighash type, and fails otherwise. -/

/-- A concrete signer: it writes the input at `i` and nothing else. -/
def demoSign (_prov : HidingSigningProvider Unit) (p : PartiallySignedTransaction Bool Nat)
    (i : Nat) (sh : Int) : Bool × PartiallySignedTransaction Bool Nat :=
  match p.inputs[i]? with
  | some inp =>
    if inp.non_witness_utxo.isSome = true then
      (true, { p with inputs := p.inputs.set i { inp with rest := true, sighash_type := sh } })
    else (false, p)
  | none => (false, p)

/-- A concrete set of external functions. -/
def demoExt : Externals Unit Bool Nat Nat :=
  { PSCTInputSigned := fun inp => inp.rest
    IsSane := fun inp => !(inp.non_witness_utxo.isSome && decide (inp.witness_utxo.nValue ≠ -1))
    IsNull := fun out => decide (out.nValue = -1)
    SignPSCTInput := demoSign
    sigdata0 := 0
    FillSignatureData := fun o s => o + s
    ProduceSignature := fun _ c _ s => (true, s + c.amount.toNat)
    FromSignatureData := fun _ s => s }

/-- A null `CTxOut` (value -1, empty script). -/
def nullTxOut : CTxOut := { nValue := -1, scriptPubKey := [] }

/-- A previous transaction, paying 50 to the script `[1]`. -/
def prevTx : CTransaction :=
  { vin := [], vout := [{ nValue := 50, scriptPubKey := [1] }], nVersion := 2, nLockTime := 0 }

/-- A wallet that holds `prevTx` under the hash 7 and nothing else. -/
def demoWallet : CWallet Unit :=
  { mapWallet := fun h => if h = 7 then some { tx := some prevTx } else none, keys := () }

/-- A transaction input that spends output 0 of the transaction with hash `h`. -/
def spend (h : Nat) : CTxIn :=
  { prevout := { hash := h, n := 0 }, scriptSig := [], nSequence := 0 }

/-- An unsigned PSCT input with no UTXO and the given sighash type. -/
def blankInput (sighash : Int) : PSCTInput Bool :=
  { non_witness_utxo := none, witness_utxo := nullTxOut, sighash_type := sighash, rest := false }

/-- An input that is already signed. -/
def signedInput : PSCTInput Bool :=
  { non_witness_utxo := none, witness_utxo := nullTxOut, sighash_type := 0, rest := true }

/-- An output paying 40 to the script `[2]`. -/
def payOut : CTxOut := { nValue := 40, scriptPubKey := [2] }

/-- A PSCT whose one input is signed and whose transaction has one output, with
no entry in `outputs`. -/
def psctShortOutputs : PartiallySignedTransaction Bool Nat :=
  { tx := { vin := [spend 7], vout := [payOut], nVersion := 2, nLockTime := 0 }
    inputs := [signedInput]
    outputs := [] }

/-- A PSCT whose transaction has no input and one output, with no entry in
`outputs`. -/
def psctNoInputs : PartiallySignedTransaction Bool Nat :=
  { tx := { vin := [], vout := [payOut], nVersion := 2, nLockTime := 0 }
    inputs := []
    outputs := [] }

/-- A PSCT whose one input is unsigned, has no UTXO and asks for sighash type 2;
the wallet holds the transaction it spends. -/
def psctMismatch : PartiallySignedTransaction Bool Nat :=
  { tx := { vin := [spend 7], vout := [payOut], nVersion := 2, nLockTime := 0 }
    inputs := [blankInput 2]
    outputs := [3] }

/-- A PSCT with three inputs: an unsigned one whose previous transaction is in
the wallet, a signed one, and an unsigned one the wallet knows nothing about. -/
def psctDemo : PartiallySignedTransaction Bool Nat :=
  { tx := { vin := [spend 7, spend 8, spend 9], vout := [payOut], nVersion := 2, nLockTime := 0 }
    inputs := [blankInput 0, signedInput, blankInput 1]
    outputs := [3] }

/-- A PSCT with two transaction inputs and a single, signed, PSCT input. -/
def psctShortInputs : PartiallySignedTransaction Bool Nat :=
  { tx := { vin := [spend 7, spend 8], vout := [], nVersion := 2, nLockTime := 0 }
    inputs := [signedInput]
    outputs := [] }

/-- A PSCT with one sane unsigned input followed by one that carries both UTXOs. -/
def psctInsane : PartiallySignedTransaction Bool Nat :=
  { tx := { vin := [spend 7, spend 8], vout := [payOut], nVersion := 2, nLockTime := 0 }
    inputs := [blankInput 0,
      { non_witness_utxo := some prevTx, witness_utxo := payOut, sighash_type := 0, rest := false }]
    outputs := [3] }

/-- The input `blankInput 0` once the wallet's transaction has been filled in
and `demoSign` has signed it for sighash type 1. -/
def filledSigned : PSCTInput Bool :=
  { non_witness_utxo := some prevTx, witness_utxo := nullTxOut, sighash_type := 1, rest := true }

/-- The PSCT `psctInsane` without its entry in `outputs`. -/
def psctInsaneShort : PartiallySignedTransaction Bool Nat :=
  { psctInsane with outputs := [] }

/-- A PSCT whose one input is signed, with an entry for its one output. -/
def psctSigned : PartiallySignedTransaction Bool Nat :=
  { tx := { vin := [spend 7], vout := [payOut], nVersion := 2, nLockTime := 0 }
    inputs := [signedInput]
    outputs := [3] }

/-! ## Theorems on `CPendingDsaRequest` and `CPrivateSendClient` -/

section ClientTheorems

variable {B W M T RK Addr Dsa : Type}

/-- Within the `int64_t` range the two's-complement reduction is the identity. -/
theorem wrapInt64_of_inRange (x : Int) (hlo : -(2 ^ 63) ≤ x) (hhi : x < 2 ^ 63) :
    wrapInt64 x = x := by
  unfold wrapInt64
  rw [Int.emod_eq_of_lt (by omega) (by omega)]
  omega

/-- C1: for every creation time and every current time whose `int64_t`
difference `now - nTimeCreated` is representable (as it is for any two
non-negative timestamps), `IsExpired` is true exactly when
`now - nTimeCreated > 15`; an age of 15 seconds or less, 15 included, is not
expired; and the answer is the same for every address and payload. -/
theorem IsExpired_iff_older_than_timeout (now : Int) (r : CPendingDsaRequest Addr Dsa)
    (hlo : -(2 ^ 63) ≤ now - r.nTimeCreated) (hhi : now - r.nTimeCreated < 2 ^ 63) :
    (r.IsExpired now = true ↔ now - r.nTimeCreated > 15) ∧
    (now - r.nTimeCreated ≤ 15 → r.IsExpired now = false) ∧
    (now - r.nTimeCreated = 15 → r.IsExpired now = false) ∧
    (∀ (a : Addr) (d : Dsa),
      CPendingDsaRequest.IsExpired now { r with addr := a, dsa := d } = r.IsExpired now) := by
  have hw := wrapInt64_of_inRange _ hlo hhi
  have hle : now - r.nTimeCreated ≤ 15 → r.IsExpired now = false := by
    intro h
    simp [CPendingDsaRequest.IsExpired, CPendingDsaRequest.TIMEOUT, hw, h]
  refine ⟨?_, hle, fun h => hle (le_of_eq h), fun a d => rfl⟩
  simp [CPendingDsaRequest.IsExpired, CPendingDsaRequest.TIMEOUT, hw]

/-- C1, at a request created at time 100 and asked about at time 116. -/
theorem IsExpired_iff_older_than_timeout_witness :
    CPendingDsaRequest.IsExpired 116 (CPendingDsaRequest.mk2 100 (7 : Nat) (9 : Nat)) = true ∧
    CPendingDsaRequest.IsExpired 115 (CPendingDsaRequest.mk2 100 (7 : Nat) (9 : Nat)) = false := by
  have h1 := IsExpired_iff_older_than_timeout 116
    (CPendingDsaRequest.mk2 100 (7 : Nat) (9 : Nat)) (by decide) (by decide)
  have h2 := IsExpired_iff_older_than_timeout 115
    (CPendingDsaRequest.mk2 100 (7 : Nat) (9 : Nat)) (by decide) (by decide)
  exact ⟨h1.1.2 (by decide), h2.2.1 (by decide)⟩

/-- C4: `operator bool` is true exactly when the address differs from the
default address or the payload differs from the default payload; the
default-constructed request is absent, and so is a request that the
two-argument constructor builds from a default address and a default payload,
at every creation time. -/
theorem toBool_iff_differs_from_default [DecidableEq Addr] [DecidableEq Dsa]
    [Inhabited Addr] [Inhabited Dsa] (r : CPendingDsaRequest Addr Dsa) :
    (r.toBool = true ↔ r.addr ≠ default ∨ r.dsa ≠ default) ∧
    (CPendingDsaRequest.mk0 : CPendingDsaRequest Addr Dsa).toBool = false ∧
    (∀ now : Int,
      (CPendingDsaRequest.mk2 now (default : Addr) (default : Dsa)).toBool = false) := by
  refine ⟨?_, ?_, ?_⟩
  · simp only [CPendingDsaRequest.toBool, CPendingDsaRequest.ne, CPendingDsaRequest.eq,
      CPendingDsaRequest.mk0]
    by_cases ha : r.addr = default <;> by_cases hd : r.dsa = default <;> simp [ha, hd]
  · simp [CPendingDsaRequest.toBool, CPendingDsaRequest.ne, CPendingDsaRequest.eq,
      CPendingDsaRequest.mk0]
  · intro now
    simp [CPendingDsaRequest.toBool, CPendingDsaRequest.ne, CPendingDsaRequest.eq,
      CPendingDsaRequest.mk0, CPendingDsaRequest.mk2]

/-- Neither inline method writes a configuration field. -/
theorem ClientOp.run_config (op : ClientOp) (s : CPrivateSendClient B W M T RK Addr Dsa) :
    (op.run s).nPrivateSendRounds = s.nPrivateSendRounds ∧
    (op.run s).nPrivateSendAmount = s.nPrivateSendAmount ∧
    (op.run s).nLiquidityProvider = s.nLiquidityProvider := by
  cases op <;> exact ⟨rfl, rfl, rfl⟩

/-- A sequence of inline methods writes no configuration field. -/
theorem runOps_config (ops : List ClientOp) (s : CPrivateSendClient B W M T RK Addr Dsa) :
    (runOps ops s).nPrivateSendRounds = s.nPrivateSendRounds ∧
    (runOps ops s).nPrivateSendAmount = s.nPrivateSendAmount ∧
    (runOps ops s).nLiquidityProvider = s.nLiquidityProvider := by
  induction ops generalizing s with
  | nil => exact ⟨rfl, rfl, rfl⟩
  | cons op ops ih =>
    have h1 := ih (op.run s)
    have h2 := ClientOp.run_config op s
    simp only [runOps, List.foldl_cons] at h1 ⊢
    exact ⟨h1.1.trans h2.1, h1.2.1.trans h2.2.1, h1.2.2.trans h2.2.2⟩

/-- C5: the client that the constructor builds, and every client reached from
it by a sequence of `SetMinBlocksToWait` and `ClearSkippedDenominations` calls,
has its rounds in [2, 16], its liquidity setting in [0, 100] and its amount in
[2, `maxAmount`], for every `maxAmount` of at least 1000.  `SetNull`, which the
constructor calls and whose body is in another file, is assumed to leave the
three settings alone. -/
theorem ctor_config_in_bounds [Inhabited T] [Inhabited Addr] [Inhabited Dsa]
    (SetNull : CPrivateSendClient B W M T RK Addr Dsa → CPrivateSendClient B W M T RK Addr Dsa)
    (hSetNull : ∀ s, (SetNull s).nPrivateSendRounds = s.nPrivateSendRounds ∧
      (SetNull s).nPrivateSendAmount = s.nPrivateSendAmount ∧
      (SetNull s).nLiquidityProvider = s.nLiquidityProvider)
    (maxAmount : Int) (hmax : 1000 ≤ maxAmount)
    (raw : CPrivateSendClient B W M T RK Addr Dsa) (pwallet : W) (ops : List ClientOp) :
    ConfigInBounds maxAmount (CPrivateSendClient.ctor SetNull raw pwallet) ∧
    ConfigInBounds maxAmount (runOps ops (CPrivateSendClient.ctor SetNull raw pwallet)) ∧
    (runOps ops (CPrivateSendClient.ctor SetNull raw pwallet)).nPrivateSendRounds = 2 ∧
    (runOps ops (CPrivateSendClient.ctor SetNull raw pwallet)).nPrivateSendAmount = 1000 ∧
    (runOps ops (CPrivateSendClient.ctor SetNull raw pwallet)).nLiquidityProvider = 0 := by
  have hc : (CPrivateSendClient.ctor SetNull raw pwallet).nPrivateSendRounds = 2 ∧
      (CPrivateSendClient.ctor SetNull raw pwallet).nPrivateSendAmount = 1000 ∧
      (CPrivateSendClient.ctor SetNull raw pwallet).nLiquidityProvider = 0 := by
    unfold CPrivateSendClient.ctor
    refine ⟨?_, ?_, ?_⟩
    · rw [(hSetNull _).1]; rfl
    · rw [(hSetNull _).2.1]; rfl
    · rw [(hSetNull _).2.2]; rfl
  have ho := runOps_config ops (CPrivateSendClient.ctor SetNull raw pwallet)
  have hr : (runOps ops (CPrivateSendClient.ctor SetNull raw pwallet)).nPrivateSendRounds = 2 :=
    ho.1.trans hc.1
  have ha : (runOps ops (CPrivateSendClient.ctor SetNull raw pwallet)).nPrivateSendAmount = 1000 :=
    ho.2.1.trans hc.2.1
  have hl : (runOps ops (CPrivateSendClient.ctor SetNull raw pwallet)).nLiquidityProvider = 0 :=
    ho.2.2.trans hc.2.2
  refine ⟨?_, ?_, hr, ha, hl⟩
  · simp only [ConfigInBounds, hc.1, hc.2.1, hc.2.2, MIN_PRIVATESEND_ROUNDS,
      MAX_PRIVATESEND_ROUNDS, MIN_PRIVATESEND_LIQUIDITY, MAX_PRIVATESEND_LIQUIDITY,
      MIN_PRIVATESEND_AMOUNT]
    omega
  · simp only [ConfigInBounds, hr, ha, hl, MIN_PRIVATESEND_ROUNDS,
      MAX_PRIVATESEND_ROUNDS, MIN_PRIVATESEND_LIQUIDITY, MAX_PRIVATESEND_LIQUIDITY,
      MIN_PRIVATESEND_AMOUNT]
    omega

/-- C5, at a constructor whose `SetNull` resets the per-round members, with
`maxAmount` 21000000 and the two inline methods called one after the other. -/
theorem ctor_config_in_bounds_witness :
    ConfigInBounds 21000000
      (runOps [ClientOp.SetMinBlocksToWait 5, ClientOp.ClearSkippedDenominations]
        (CPrivateSendClient.ctor resetRound rawClient 1)) :=
  (ctor_config_in_bounds resetRound (fun _ => ⟨rfl, rfl, rfl⟩) 21000000 (by decide)
    rawClient 1 [ClientOp.SetMinBlocksToWait 5, ClientOp.ClearSkippedDenominations]).2.1

/-- C6: `ClearSkippedDenominations` empties the skipped denominations and
restoring that one field gives back the prior state, so no other member
changes (the used masternodes, the locked outpoints, the cached success block,
the blocks to wait and the configuration are listed explicitly); it is
idempotent.  `SetMinBlocksToWait n` stores `n` in `nMinBlocksToWait` and
restoring that one field gives back the prior state; in particular the skipped
denominations stay. -/
theorem inline_methods_frame (s : CPrivateSendClient B W M T RK Addr Dsa) (n : Int) :
    (s.ClearSkippedDenominations.vecDenominationsSkipped = [] ∧
      { s.ClearSkippedDenominations with
          vecDenominationsSkipped := s.vecDenominationsSkipped } = s ∧
      s.ClearSkippedDenominations.vecMasternodesUsed = s.vecMasternodesUsed ∧
      s.ClearSkippedDenominations.vecOutPointLocked = s.vecOutPointLocked ∧
      s.ClearSkippedDenominations.nCachedLastSuccessBlock = s.nCachedLastSuccessBlock ∧
      s.ClearSkippedDenominations.nMinBlocksToWait = s.nMinBlocksToWait ∧
      s.ClearSkippedDenominations.nPrivateSendRounds = s.nPrivateSendRounds ∧
      s.ClearSkippedDenominations.nPrivateSendAmount = s.nPrivateSendAmount ∧
      s.ClearSkippedDenominations.nLiquidityProvider = s.nLiquidityProvider ∧
      s.ClearSkippedDenominations.fEnablePrivateSend = s.fEnablePrivateSend ∧
      s.ClearSkippedDenominations.fPrivateSendMultiSession = s.fPrivateSendMultiSession ∧
      s.ClearSkippedDenominations.ClearSkippedDenominations = s.ClearSkippedDenominations) ∧
    ((s.SetMinBlocksToWait n).nMinBlocksToWait = n ∧
      { s.SetMinBlocksToWait n with nMinBlocksToWait := s.nMinBlocksToWait } = s ∧
      (s.SetMinBlocksToWait n).vecDenominationsSkipped = s.vecDenominationsSkipped) := by
  refine ⟨⟨rfl, rfl, rfl, rfl, rfl, rfl, rfl, rfl, rfl, rfl, rfl, rfl⟩, rfl, rfl, rfl⟩

end ClientTheorems

/-! ## Theorems on `FillPSCT` -/

section FillPSCTTheorems

variable {K R O S : Type}

/-- The concrete signer writes only the input it is called on. -/
theorem demoExt_signerLocal : SignerLocal demoExt := by
  intro prov p i sh
  show (demoSign prov p i sh).2.tx = p.tx ∧ (demoSign prov p i sh).2.outputs = p.outputs ∧
    (demoSign prov p i sh).2.inputs.length = p.inputs.length ∧
    ∀ j, j ≠ i → (demoSign prov p i sh).2.inputs[j]? = p.inputs[j]?
  unfold demoSign
  cases h : p.inputs[i]? with
  | none => simp
  | some inp =>
    by_cases hu : inp.non_witness_utxo.isSome = true
    · simp only [hu, if_true, List.length_set, true_and]
      intro j hj
      exact List.getElem?_set_ne (Ne.symm hj)
    · simp [hu]

/-- With a signer that leaves `psctx.tx` alone and fuel above the number of
inputs still to visit, the fuelled loop returns, and returns what the loop over
the fixed input list gives. -/
theorem inputLoop_eq_inputScan (ext : Externals K R O S) (pwallet : CWallet K) (sh : Int)
    (sign bip : Bool)
    (htx : ∀ prov p i s, (ext.SignPSCTInput prov p i s).2.tx = p.tx) :
    ∀ (fuel i : Nat) (st : FillState R O), st.psctx.tx.vin.length - i < fuel →
      inputLoop ext pwallet sh sign bip fuel i st =
        some (inputScan ext pwallet sh sign bip (st.psctx.tx.vin.drop i) i st) := by
  intro fuel
  induction fuel with
  | zero => intro i st h; omega
  | succ fuel ih =>
    intro i st hfuel
    unfold inputLoop
    cases hv : st.psctx.tx.vin[i]? with
    | none =>
      have hlen : st.psctx.tx.vin.length ≤ i := List.getElem?_eq_none_iff.mp hv
      rw [List.drop_eq_nil_of_le hlen]
      simp [inputScan]
    | some txin =>
      obtain ⟨hlt, hget⟩ := List.getElem?_eq_some_iff.mp hv
      have hdrop : st.psctx.tx.vin.drop i = txin :: st.psctx.tx.vin.drop (i + 1) := by
        rw [List.drop_eq_getElem_cons hlt, hget]
      rw [hdrop]
      simp only [inputScan]
      cases hin : st.psctx.inputs[i]? with
      | none => simp
      | some input =>
        simp only []
        by_cases hs : ext.PSCTInputSigned input = true
        · simp only [if_pos hs]
          rw [ih (i + 1) _ (by simp only []; omega)]
        · simp only [if_neg hs]
          by_cases hsane : ext.IsSane input = false
          · simp only [if_pos hsane]
          · simp only [if_neg hsane]
            split
            · rfl
            · rw [ih (i + 1) _ (by simp only [htx]; omega)]
              simp only [htx]

/-- The UTXO fill leaves the sighash type alone. -/
theorem fillUtxo_sighash_type (ext : Externals K R O S) (pwallet : CWallet K) (txin : CTxIn)
    (input : PSCTInput R) :
    (fillUtxo ext pwallet txin input).sighash_type = input.sighash_type := by
  unfold fillUtxo
  split
  · split <;> rfl
  · rfl

/-- The five ways one iteration of the input loop can go. -/
theorem inputScan_cons (ext : Externals K R O S) (pwallet : CWallet K) (sh : Int)
    (sign bip : Bool) (txin : CTxIn) (rest : List CTxIn) (i : Nat) (st : FillState R O) :
    (st.psctx.inputs[i]? = none ∧
      inputScan ext pwallet sh sign bip (txin :: rest) i st =
        { begun st with outcome := .out_of_range }) ∨
    (∃ input, st.psctx.inputs[i]? = some input ∧ ext.PSCTInputSigned input = true ∧
      inputScan ext pwallet sh sign bip (txin :: rest) i st =
        inputScan ext pwallet sh sign bip rest (i + 1) (begun st)) ∨
    (∃ input, st.psctx.inputs[i]? = some input ∧ ext.PSCTInputSigned input = false ∧
      ext.IsSane input = false ∧
      inputScan ext pwallet sh sign bip (txin :: rest) i st =
        { begun st with outcome := .returned .INVALID_PSCT }) ∨
    (∃ input, st.psctx.inputs[i]? = some input ∧ ext.PSCTInputSigned input = false ∧
      ext.IsSane input = true ∧ SighashMismatch sign sh input ∧
      inputScan ext pwallet sh sign bip (txin :: rest) i st =
        { begun st with psctx := withUtxo ext pwallet txin input i st.psctx,
                        outcome := .returned .SIGHASH_MISMATCH }) ∨
    (∃ input, st.psctx.inputs[i]? = some input ∧ ext.PSCTInputSigned input = false ∧
      ext.IsSane input = true ∧ ¬ SighashMismatch sign sh input ∧
      inputScan ext pwallet sh sign bip (txin :: rest) i st =
        inputScan ext pwallet sh sign bip rest (i + 1)
          (afterSign ext pwallet sh sign bip txin input i st)) := by
  cases hin : st.psctx.inputs[i]? with
  | none =>
    left
    refine ⟨rfl, ?_⟩
    simp only [inputScan, hin]
    rfl
  | some input =>
    right
    by_cases hs : ext.PSCTInputSigned input = true
    · left
      refine ⟨input, rfl, hs, ?_⟩
      simp only [inputScan, hin, if_pos hs]
      rfl
    · right
      have hs' : ext.PSCTInputSigned input = false := by simpa using hs
      by_cases hsane : ext.IsSane input = false
      · left
        refine ⟨input, rfl, hs', hsane, ?_⟩
        simp only [inputScan, hin, if_neg hs, if_pos hsane]
        rfl
      · right
        have hsane' : ext.IsSane input = true := by simpa using hsane
        by_cases hm : SighashMismatch sign sh input
        · left
          refine ⟨input, rfl, hs', hsane', hm, ?_⟩
          have hm' : sign = true ∧ 0 < (fillUtxo ext pwallet txin input).sighash_type ∧
              (fillUtxo ext pwallet txin input).sighash_type ≠ sh := by
            rw [fillUtxo_sighash_type]; exact hm
          simp only [inputScan, hin, if_neg hs, if_neg hsane, if_pos hm']
          rfl
        · right
          refine ⟨input, rfl, hs', hsane', hm, ?_⟩
          have hm' : ¬ (sign = true ∧ 0 < (fillUtxo ext pwallet txin input).sighash_type ∧
              (fillUtxo ext pwallet txin input).sighash_type ≠ sh) := by
            rw [fillUtxo_sighash_type]; exact hm
          simp only [inputScan, hin, if_neg hs, if_neg hsane, if_neg hm']
          rfl

/-- What the output loop leaves alone, and how it can end. -/
theorem outputLoop_frame (ext : Externals K R O S) (pwallet : CWallet K) (bip : Bool) :
    ∀ (todo i : Nat) (st : FillState R O),
      (outputLoop ext pwallet bip todo i st).psctx.tx = st.psctx.tx ∧
      (outputLoop ext pwallet bip todo i st).psctx.inputs = st.psctx.inputs ∧
      (outputLoop ext pwallet bip todo i st).complete = st.complete ∧
      (outputLoop ext pwallet bip todo i st).inputIters = st.inputIters ∧
      (outputLoop ext pwallet bip todo i st).signerCalls = st.signerCalls ∧
      ((outputLoop ext pwallet bip todo i st).outcome = .returned .OK ∨
        (outputLoop ext pwallet bip todo i st).outcome = .out_of_range) ∧
      ((outputLoop ext pwallet bip todo i st).outcome = .returned .OK →
        (outputLoop ext pwallet bip todo i st).outputIters = st.outputIters + todo) := by
  intro todo
  induction todo with
  | zero =>
    intro i st
    simp [outputLoop]
  | succ todo ih =>
    intro i st
    unfold outputLoop
    cases hv : st.psctx.tx.vout[i]? with
    | none => simp
    | some out =>
      cases ho : st.psctx.outputs[i]? with
      | none => simp
      | some psct_out =>
        simp only []
        refine ⟨(ih _ _).1, (ih _ _).2.1, (ih _ _).2.2.1, (ih _ _).2.2.2.1, (ih _ _).2.2.2.2.1,
          (ih _ _).2.2.2.2.2.1, ?_⟩
        intro hok
        have h7 := (ih _ _).2.2.2.2.2.2 hok
        rw [h7]
        simp only []
        omega

/-- With an entry in `vout` and in `outputs` for every index still to visit, the
output loop returns `OK`. -/
theorem outputLoop_ok (ext : Externals K R O S) (pwallet : CWallet K) (bip : Bool) :
    ∀ (todo i : Nat) (st : FillState R O),
      i + todo ≤ st.psctx.tx.vout.length → i + todo ≤ st.psctx.outputs.length →
      (outputLoop ext pwallet bip todo i st).outcome = .returned .OK := by
  intro todo
  induction todo with
  | zero =>
    intro i st _ _
    simp [outputLoop]
  | succ todo ih =>
    intro i st hv ho
    unfold outputLoop
    have hv1 : i < st.psctx.tx.vout.length := by omega
    have ho1 : i < st.psctx.outputs.length := by omega
    rw [List.getElem?_eq_getElem hv1, List.getElem?_eq_getElem ho1]
    simp only []
    apply ih
    · simp only []; omega
    · simp only [List.length_set]; omega

/-- The flag `complete` is the conjunction of the flags the signer returned. -/
theorem inputScan_complete (ext : Externals K R O S) (pwallet : CWallet K) (sh : Int)
    (sign bip : Bool) :
    ∀ (rest : List CTxIn) (i : Nat) (st : FillState R O),
      st.complete = st.signerCalls.all (fun c => c.result) →
      (inputScan ext pwallet sh sign bip rest i st).complete =
        (inputScan ext pwallet sh sign bip rest i st).signerCalls.all (fun c => c.result) := by
  intro rest
  induction rest with
  | nil =>
    intro i st h
    have hf := outputLoop_frame ext pwallet bip st.psctx.tx.vout.length 0 st
    simp only [inputScan]
    rw [hf.2.2.1, hf.2.2.2.2.1, h]
  | cons txin rest ih =>
    intro i st h
    rcases inputScan_cons ext pwallet sh sign bip txin rest i st with
      ⟨_, he⟩ | ⟨input, _, _, he⟩ | ⟨input, _, _, _, he⟩ | ⟨input, _, _, _, _, he⟩ |
      ⟨input, _, _, _, _, he⟩
    · rw [he]; exact h
    · rw [he]; exact ih _ _ h
    · rw [he]; exact h
    · rw [he]; exact h
    · rw [he]
      apply ih
      simp [afterSign, h, List.all_append]

/-- Every recorded signer call carries the flag that `SignPSCTInput` returns on
the recorded arguments. -/
theorem inputScan_call_result (ext : Externals K R O S) (pwallet : CWallet K) (sh : Int)
    (sign bip : Bool) :
    ∀ (rest : List CTxIn) (i : Nat) (st : FillState R O),
      (∀ c ∈ st.signerCalls, c.result = (ext.SignPSCTInput
        { provider := pwallet, hide_secret := !sign, hide_origin := !bip }
        c.psctx c.index sh).1) →
      ∀ c ∈ (inputScan ext pwallet sh sign bip rest i st).signerCalls,
        c.result = (ext.SignPSCTInput
          { provider := pwallet, hide_secret := !sign, hide_origin := !bip }
          c.psctx c.index sh).1 := by
  intro rest
  induction rest with
  | nil =>
    intro i st h
    have hf := outputLoop_frame ext pwallet bip st.psctx.tx.vout.length 0 st
    simp only [inputScan]
    rw [hf.2.2.2.2.1]
    exact h
  | cons txin rest ih =>
    intro i st h
    rcases inputScan_cons ext pwallet sh sign bip txin rest i st with
      ⟨_, he⟩ | ⟨input, _, _, he⟩ | ⟨input, _, _, _, he⟩ | ⟨input, _, _, _, _, he⟩ |
      ⟨input, _, _, _, _, he⟩
    · rw [he]; exact h
    · rw [he]; exact ih _ _ h
    · rw [he]; exact h
    · rw [he]; exact h
    · rw [he]
      apply ih
      intro c hc
      simp only [afterSign, List.mem_append, List.mem_singleton] at hc
      rcases hc with hc | hc
      · exact h c hc
      · subst hc; rfl

/-- The input loop begins at most one iteration per transaction input, and a
call that returns `OK` has begun one output iteration per transaction output. -/
theorem inputScan_iters (ext : Externals K R O S) (pwallet : CWallet K) (sh : Int)
    (sign bip : Bool) :
    ∀ (rest : List CTxIn) (i : Nat) (st : FillState R O),
      (inputScan ext pwallet sh sign bip rest i st).inputIters ≤ st.inputIters + rest.length ∧
      ((inputScan ext pwallet sh sign bip rest i st).outcome = .returned .OK →
        (inputScan ext pwallet sh sign bip rest i st).inputIters = st.inputIters + rest.length ∧
        (inputScan ext pwallet sh sign bip rest i st).outputIters =
          st.outputIters + (inputScan ext pwallet sh sign bip rest i st).psctx.tx.vout.length) := by
  intro rest
  induction rest with
  | nil =>
    intro i st
    have hf := outputLoop_frame ext pwallet bip st.psctx.tx.vout.length 0 st
    simp only [inputScan]
    rw [hf.2.2.2.1, hf.1]
    exact ⟨by simp, fun hok => ⟨by simp, hf.2.2.2.2.2.2 hok⟩⟩
  | cons txin rest ih =>
    intro i st
    rcases inputScan_cons ext pwallet sh sign bip txin rest i st with
      ⟨_, he⟩ | ⟨input, _, _, he⟩ | ⟨input, _, _, _, he⟩ | ⟨input, _, _, _, _, he⟩ |
      ⟨input, _, _, _, _, he⟩
    · rw [he]; simp [begun]
    · rw [he]
      have h := ih (i + 1) (begun st)
      simp only [begun, List.length_cons] at h ⊢
      exact ⟨by omega, fun hok => ⟨by have := (h.2 hok).1; omega, (h.2 hok).2⟩⟩
    · rw [he]; simp [begun]
    · rw [he]; simp [begun]
    · rw [he]
      have h := ih (i + 1) (afterSign ext pwallet sh sign bip txin input i st)
      simp only [afterSign, List.length_cons] at h ⊢
      exact ⟨by omega, fun hok => ⟨by have := (h.2 hok).1; omega, (h.2 hok).2⟩⟩

/-- A call with `sign = false` does not end in `SIGHASH_MISMATCH`. -/
theorem inputScan_no_mismatch (ext : Externals K R O S) (pwallet : CWallet K) (sh : Int)
    (bip : Bool) :
    ∀ (rest : List CTxIn) (i : Nat) (st : FillState R O),
      (inputScan ext pwallet sh false bip rest i st).outcome ≠ .returned .SIGHASH_MISMATCH := by
  intro rest
  induction rest with
  | nil =>
    intro i st
    have hf := outputLoop_frame ext pwallet bip st.psctx.tx.vout.length 0 st
    simp only [inputScan]
    rcases hf.2.2.2.2.2.1 with h | h <;> rw [h] <;> simp
  | cons txin rest ih =>
    intro i st
    rcases inputScan_cons ext pwallet sh false bip txin rest i st with
      ⟨_, he⟩ | ⟨input, _, _, he⟩ | ⟨input, _, _, _, he⟩ | ⟨input, _, _, _, hm, he⟩ |
      ⟨input, _, _, _, _, he⟩
    · rw [he]; simp
    · rw [he]; exact ih _ _
    · rw [he]; simp
    · exact absurd hm.1 (by simp)
    · rw [he]; exact ih _ _

/-- The UTXO fill on input `i` writes input `i` only. -/
theorem withUtxo_getElem?_ne (ext : Externals K R O S) (pwallet : CWallet K) (txin : CTxIn)
    (input : PSCTInput R) (i j : Nat) (p : PartiallySignedTransaction R O) (hj : j ≠ i) :
    (withUtxo ext pwallet txin input i p).inputs[j]? = p.inputs[j]? := by
  simp only [withUtxo]
  exact List.getElem?_set_ne (Ne.symm hj)

/-- After the UTXO fill, input `i` is the filled input. -/
theorem withUtxo_getElem?_self (ext : Externals K R O S) (pwallet : CWallet K) (txin : CTxIn)
    (input orig : PSCTInput R) (i : Nat) (p : PartiallySignedTransaction R O)
    (hi : p.inputs[i]? = some orig) :
    (withUtxo ext pwallet txin input i p).inputs[i]? = some (fillUtxo ext pwallet txin input) := by
  obtain ⟨hlt, _⟩ := List.getElem?_eq_some_iff.mp hi
  simp only [withUtxo]
  rw [List.getElem?_set_self hlt]

/-- With a local signer, one signing step keeps the transaction, the outputs,
the number of inputs and every input other than `i`. -/
theorem afterSign_frame (ext : Externals K R O S) (hloc : SignerLocal ext) (pwallet : CWallet K)
    (sh : Int) (sign bip : Bool) (txin : CTxIn) (input : PSCTInput R) (i : Nat)
    (st : FillState R O) :
    (afterSign ext pwallet sh sign bip txin input i st).psctx.tx = st.psctx.tx ∧
    (afterSign ext pwallet sh sign bip txin input i st).psctx.outputs = st.psctx.outputs ∧
    (afterSign ext pwallet sh sign bip txin input i st).psctx.inputs.length =
      st.psctx.inputs.length ∧
    (∀ j, j ≠ i → (afterSign ext pwallet sh sign bip txin input i st).psctx.inputs[j]? =
      st.psctx.inputs[j]?) := by
  obtain ⟨h1, h2, h3, h4⟩ := hloc
    { provider := pwallet, hide_secret := !sign, hide_origin := !bip }
    (withUtxo ext pwallet txin input i st.psctx) i sh
  refine ⟨?_, ?_, ?_, ?_⟩
  · simp only [afterSign]; rw [h1]; rfl
  · simp only [afterSign]; rw [h2]; rfl
  · simp only [afterSign]; rw [h3]; simp [withUtxo]
  · intro j hj
    simp only [afterSign]
    rw [h4 j hj]
    exact withUtxo_getElem?_ne ext pwallet txin input i j st.psctx hj

/-- With a local signer, `FillPSCT` keeps the transaction and the number of
inputs, and an iteration never writes an input of a smaller index. -/
theorem inputScan_frame (ext : Externals K R O S) (hloc : SignerLocal ext) (pwallet : CWallet K)
    (sh : Int) (sign bip : Bool) :
    ∀ (rest : List CTxIn) (i : Nat) (st : FillState R O),
      (inputScan ext pwallet sh sign bip rest i st).psctx.tx = st.psctx.tx ∧
      (inputScan ext pwallet sh sign bip rest i st).psctx.inputs.length =
        st.psctx.inputs.length ∧
      (∀ k, k < i → (inputScan ext pwallet sh sign bip rest i st).psctx.inputs[k]? =
        st.psctx.inputs[k]?) := by
  intro rest
  induction rest with
  | nil =>
    intro i st
    have hf := outputLoop_frame ext pwallet bip st.psctx.tx.vout.length 0 st
    simp only [inputScan]
    refine ⟨hf.1, by rw [hf.2.1], fun k _ => by rw [hf.2.1]⟩
  | cons txin rest ih =>
    intro i st
    rcases inputScan_cons ext pwallet sh sign bip txin rest i st with
      ⟨_, he⟩ | ⟨input, _, _, he⟩ | ⟨input, _, _, _, he⟩ | ⟨input, _, _, _, _, he⟩ |
      ⟨input, _, _, _, _, he⟩
    · rw [he]; exact ⟨rfl, rfl, fun _ _ => rfl⟩
    · rw [he]
      have h := ih (i + 1) (begun st)
      exact ⟨h.1, h.2.1, fun k hk => h.2.2 k (by omega)⟩
    · rw [he]; exact ⟨rfl, rfl, fun _ _ => rfl⟩
    · rw [he]
      refine ⟨rfl, by simp [begun, withUtxo], fun k hk => ?_⟩
      exact withUtxo_getElem?_ne ext pwallet txin input i k st.psctx (by omega)
    · rw [he]
      have h := ih (i + 1) (afterSign ext pwallet sh sign bip txin input i st)
      have ha := afterSign_frame ext hloc pwallet sh sign bip txin input i st
      refine ⟨h.1.trans ha.1, h.2.1.trans ha.2.2.1, fun k hk => ?_⟩
      rw [h.2.2 k (by omega)]
      exact ha.2.2.2 k (by omega)

/-- With a local signer, an input that is already signed when the loop has not
passed it yet, or at any index, is the same after the call. -/
theorem inputScan_signed_unchanged (ext : Externals K R O S) (hloc : SignerLocal ext)
    (pwallet : CWallet K) (sh : Int) (sign bip : Bool) :
    ∀ (rest : List CTxIn) (i : Nat) (st : FillState R O) (k : Nat) (inp : PSCTInput R),
      st.psctx.inputs[k]? = some inp → ext.PSCTInputSigned inp = true →
      (inputScan ext pwallet sh sign bip rest i st).psctx.inputs[k]? = some inp := by
  intro rest
  induction rest with
  | nil =>
    intro i st k inp hk _
    have hf := outputLoop_frame ext pwallet bip st.psctx.tx.vout.length 0 st
    simp only [inputScan]
    rw [hf.2.1]
    exact hk
  | cons txin rest ih =>
    intro i st k inp hk hs
    rcases inputScan_cons ext pwallet sh sign bip txin rest i st with
      ⟨_, he⟩ | ⟨input, _, _, he⟩ | ⟨input, _, _, _, he⟩ | ⟨input, hin, hu, _, _, he⟩ |
      ⟨input, hin, hu, _, _, he⟩
    · rw [he]; exact hk
    · rw [he]; exact ih (i + 1) (begun st) k inp hk hs
    · rw [he]; exact hk
    · rw [he]
      have hne : k ≠ i := by
        intro h
        subst h
        rw [hin] at hk
        cases hk
        rw [hs] at hu
        cases hu
      show (withUtxo ext pwallet txin input i st.psctx).inputs[k]? = some inp
      rw [withUtxo_getElem?_ne ext pwallet txin input i k st.psctx hne]
      exact hk
    · rw [he]
      have hne : k ≠ i := by
        intro h
        subst h
        rw [hin] at hk
        cases hk
        rw [hs] at hu
        cases hu
      have ha := afterSign_frame ext hloc pwallet sh sign bip txin input i st
      apply ih
      · rw [ha.2.2.2 k hne]; exact hk
      · exact hs

/-- With a local signer: if the input `d` places ahead is offending and none
before it is, the call returns that input's error, having begun `d + 1`
iterations and no output iteration; the outputs and the inputs behind it are as
they were, and the offending input is unchanged when it is not sane and has
gone through the UTXO fill when the sighash test rejects it. -/
theorem inputScan_first_offending (ext : Externals K R O S) (hloc : SignerLocal ext)
    (pwallet : CWallet K) (sh : Int) (sign bip : Bool) (txin : CTxIn) (inp : PSCTInput R) :
    ∀ (d : Nat) (rest : List CTxIn) (i : Nat) (st : FillState R O),
      rest[d]? = some txin → st.psctx.inputs[i + d]? = some inp →
      Offending ext sign sh inp →
      (∀ j inp1, j < d → st.psctx.inputs[i + j]? = some inp1 → ¬ Offending ext sign sh inp1) →
      (inputScan ext pwallet sh sign bip rest i st).outcome = .returned (errorOf ext inp) ∧
      (inputScan ext pwallet sh sign bip rest i st).psctx.outputs = st.psctx.outputs ∧
      (inputScan ext pwallet sh sign bip rest i st).psctx.inputs[i + d]? =
        some (if ext.IsSane inp = false then inp else fillUtxo ext pwallet txin inp) ∧
      (∀ j, i + d < j → (inputScan ext pwallet sh sign bip rest i st).psctx.inputs[j]? =
        st.psctx.inputs[j]?) ∧
      (inputScan ext pwallet sh sign bip rest i st).inputIters = st.inputIters + d + 1 ∧
      (inputScan ext pwallet sh sign bip rest i st).outputIters = st.outputIters := by
  intro d
  induction d with
  | zero =>
    intro rest i st hrest hin hoff _
    cases rest with
    | nil => simp at hrest
    | cons t rest =>
      have ht : t = txin := by simpa using hrest
      subst ht
      rw [Nat.add_zero] at hin
      simp only [Nat.add_zero]
      rcases inputScan_cons ext pwallet sh sign bip t rest i st with
        ⟨hn, _⟩ | ⟨input, hi, hs, _⟩ | ⟨input, hi, _, hsane, he⟩ | ⟨input, hi, _, hsane, _, he⟩ |
        ⟨input, hi, _, hsane, hm, _⟩
      · rw [hn] at hin; cases hin
      · rw [hi] at hin; cases hin
        rw [hoff.1] at hs; cases hs
      · rw [hi] at hin; cases hin
        rw [he]
        refine ⟨?_, rfl, ?_, fun _ _ => rfl, rfl, rfl⟩
        · simp [errorOf, hsane]
        · simp only [begun, if_pos hsane]; exact hi
      · rw [hi] at hin; cases hin
        rw [he]
        have hsane1 : ¬ ext.IsSane inp = false := by simp [hsane]
        refine ⟨?_, rfl, ?_, fun j hj => ?_, rfl, rfl⟩
        · simp [errorOf, hsane]
        · simp only [if_neg hsane1]
          exact withUtxo_getElem?_self ext pwallet t inp inp i st.psctx hi
        · exact withUtxo_getElem?_ne ext pwallet t inp i j st.psctx (by omega)
      · rw [hi] at hin; cases hin
        rcases hoff.2 with h | h
        · rw [hsane] at h; cases h
        · exact absurd h hm
  | succ d ih =>
    intro rest i st hrest hin hoff hbefore
    cases rest with
    | nil => simp at hrest
    | cons t rest =>
      have hrest1 : rest[d]? = some txin := by simpa using hrest
      have hidx : i + 1 + d = i + (d + 1) := by omega
      have hnot : ∀ input, st.psctx.inputs[i]? = some input → ¬ Offending ext sign sh input :=
        fun input hi => hbefore 0 input (by omega) (by simpa using hi)
      rcases inputScan_cons ext pwallet sh sign bip t rest i st with
        ⟨hn, _⟩ | ⟨input, hi, hs, he⟩ | ⟨input, hi, hu, hsane, _⟩ | ⟨input, hi, hu, _, hm, _⟩ |
        ⟨input, hi, _, _, _, he⟩
      · obtain ⟨hlt, _⟩ := List.getElem?_eq_some_iff.mp hin
        have : st.psctx.inputs.length ≤ i := List.getElem?_eq_none_iff.mp hn
        omega
      · rw [he]
        have h := ih rest (i + 1) (begun st) hrest1 (by rw [hidx]; exact hin) hoff
          (fun j inp1 hj hget => hbefore (j + 1) inp1 (by omega)
            (by rw [show i + (j + 1) = i + 1 + j by omega]; exact hget))
        rw [hidx] at h
        refine ⟨h.1, h.2.1, h.2.2.1, fun j hj => h.2.2.2.1 j hj, ?_, h.2.2.2.2.2⟩
        rw [h.2.2.2.2.1]
        simp only [begun]
        omega
      · exact absurd ⟨hu, Or.inl hsane⟩ (hnot input hi)
      · exact absurd ⟨hu, Or.inr hm⟩ (hnot input hi)
      · rw [he]
        have ha := afterSign_frame ext hloc pwallet sh sign bip t input i st
        have h := ih rest (i + 1) (afterSign ext pwallet sh sign bip t input i st) hrest1
          (by rw [hidx, ha.2.2.2 _ (by omega)]; exact hin) hoff
          (fun j inp1 hj hget => hbefore (j + 1) inp1 (by omega)
            (by
              rw [ha.2.2.2 _ (by omega)] at hget
              rw [show i + (j + 1) = i + 1 + j by omega]; exact hget))
        rw [hidx] at h
        refine ⟨h.1, h.2.1.trans ha.2.1, h.2.2.1, fun j hj => ?_, ?_, h.2.2.2.2.2⟩
        · rw [h.2.2.2.1 j hj]
          exact ha.2.2.2 j (by omega)
        · rw [h.2.2.2.2.1]
          simp only [afterSign]
          omega

/-- With a local signer and an entry in `inputs` for every transaction input
still to visit and in `outputs` for every transaction output, no access is out
of range. -/
theorem inputScan_no_throw (ext : Externals K R O S) (hloc : SignerLocal ext)
    (pwallet : CWallet K) (sh : Int) (sign bip : Bool) :
    ∀ (rest : List CTxIn) (i : Nat) (st : FillState R O),
      i + rest.length ≤ st.psctx.inputs.length →
      st.psctx.tx.vout.length ≤ st.psctx.outputs.length →
      (inputScan ext pwallet sh sign bip rest i st).outcome ≠ .out_of_range := by
  intro rest
  induction rest with
  | nil =>
    intro i st _ hout
    simp only [inputScan]
    rw [outputLoop_ok ext pwallet bip _ 0 st (by omega) (by omega)]
    simp
  | cons txin rest ih =>
    intro i st hlen hout
    simp only [List.length_cons] at hlen
    rcases inputScan_cons ext pwallet sh sign bip txin rest i st with
      ⟨hn, _⟩ | ⟨input, _, _, he⟩ | ⟨input, _, _, _, he⟩ | ⟨input, _, _, _, _, he⟩ |
      ⟨input, _, _, _, _, he⟩
    · have : st.psctx.inputs.length ≤ i := List.getElem?_eq_none_iff.mp hn
      omega
    · rw [he]
      exact ih (i + 1) (begun st) (by simp only [begun]; omega) hout
    · rw [he]; simp
    · rw [he]; simp
    · rw [he]
      have ha := afterSign_frame ext hloc pwallet sh sign bip txin input i st
      apply ih
      · rw [ha.2.2.1]; omega
      · rw [ha.1, ha.2.1]; exact hout

/-- With a local signer and the same entries present, a call in which no input
still to visit is offending returns `OK`. -/
theorem inputScan_ok (ext : Externals K R O S) (hloc : SignerLocal ext)
    (pwallet : CWallet K) (sh : Int) (sign bip : Bool) :
    ∀ (rest : List CTxIn) (i : Nat) (st : FillState R O),
      i + rest.length ≤ st.psctx.inputs.length →
      st.psctx.tx.vout.length ≤ st.psctx.outputs.length →
      (∀ j inp, i ≤ j → j < i + rest.length → st.psctx.inputs[j]? = some inp →
        ¬ Offending ext sign sh inp) →
      (inputScan ext pwallet sh sign bip rest i st).outcome = .returned .OK := by
  intro rest
  induction rest with
  | nil =>
    intro i st _ hout _
    simp only [inputScan]
    exact outputLoop_ok ext pwallet bip _ 0 st (by omega) (by omega)
  | cons txin rest ih =>
    intro i st hlen hout hno
    simp only [List.length_cons] at hlen hno
    rcases inputScan_cons ext pwallet sh sign bip txin rest i st with
      ⟨hn, _⟩ | ⟨input, _, _, he⟩ | ⟨input, hi, hu, hsane, _⟩ | ⟨input, hi, hu, _, hm, _⟩ |
      ⟨input, _, _, _, _, he⟩
    · have : st.psctx.inputs.length ≤ i := List.getElem?_eq_none_iff.mp hn
      omega
    · rw [he]
      exact ih (i + 1) (begun st) (by simp only [begun]; omega) hout
        (fun j inp h1 h2 hget => hno j inp (by omega) (by omega) hget)
    · exact absurd ⟨hu, Or.inl hsane⟩ (hno i input (by omega) (by omega) hi)
    · exact absurd ⟨hu, Or.inr hm⟩ (hno i input (by omega) (by omega) hi)
    · rw [he]
      have ha := afterSign_frame ext hloc pwallet sh sign bip txin input i st
      apply ih
      · rw [ha.2.2.1]; omega
      · rw [ha.1, ha.2.1]; exact hout
      · intro j inp h1 h2 hget
        rw [ha.2.2.2 j (by omega)] at hget
        exact hno j inp (by omega) (by omega) hget

/-- With a local signer, every signer call is made on an unsigned, sane input
of the original PSCT that passes the sighash test, after the UTXO fill. -/
theorem inputScan_calls (ext : Externals K R O S) (hloc : SignerLocal ext)
    (pwallet : CWallet K) (sh : Int) (sign bip : Bool) (p0 : PartiallySignedTransaction R O) :
    ∀ (rest : List CTxIn) (i : Nat) (st : FillState R O),
      (∀ d, rest[d]? = p0.tx.vin[i + d]?) →
      (∀ j, i ≤ j → st.psctx.inputs[j]? = p0.inputs[j]?) →
      (∀ c ∈ st.signerCalls, CallFilled ext pwallet sign sh p0 c) →
      ∀ c ∈ (inputScan ext pwallet sh sign bip rest i st).signerCalls,
        CallFilled ext pwallet sign sh p0 c := by
  intro rest
  induction rest with
  | nil =>
    intro i st _ _ h
    have hf := outputLoop_frame ext pwallet bip st.psctx.tx.vout.length 0 st
    simp only [inputScan]
    rw [hf.2.2.2.2.1]
    exact h
  | cons txin rest ih =>
    intro i st hrest hin h
    have hrest1 : ∀ d, rest[d]? = p0.tx.vin[i + 1 + d]? := by
      intro d
      have := hrest (d + 1)
      rw [show i + (d + 1) = i + 1 + d by omega] at this
      simpa using this
    have htxin : p0.tx.vin[i]? = some txin := by
      have := hrest 0
      simpa using this.symm
    rcases inputScan_cons ext pwallet sh sign bip txin rest i st with
      ⟨_, he⟩ | ⟨input, _, _, he⟩ | ⟨input, _, _, _, he⟩ | ⟨input, _, _, _, _, he⟩ |
      ⟨input, hi, hu, hsane, hm, he⟩
    · rw [he]; exact h
    · rw [he]
      exact ih (i + 1) (begun st) hrest1 (fun j hj => hin j (by omega)) h
    · rw [he]; exact h
    · rw [he]; exact h
    · rw [he]
      have ha := afterSign_frame ext hloc pwallet sh sign bip txin input i st
      apply ih (i + 1) _ hrest1
      · intro j hj
        rw [ha.2.2.2 j (by omega)]
        exact hin j (by omega)
      · intro c hc
        simp only [afterSign, List.mem_append, List.mem_singleton] at hc
        rcases hc with hc | hc
        · exact h c hc
        · subst hc
          refine ⟨txin, input, htxin, ?_, hu, hsane, hm, ?_⟩
          · rw [← hin i (le_refl i)]; exact hi
          · exact withUtxo_getElem?_self ext pwallet txin input input i st.psctx hi

/-- With a local signer, a call that returns `OK` has called the signer on
exactly the indices whose input was not signed, in increasing order. -/
theorem inputScan_call_indices (ext : Externals K R O S) (hloc : SignerLocal ext)
    (pwallet : CWallet K) (sh : Int) (sign bip : Bool) :
    ∀ (rest : List CTxIn) (i : Nat) (st : FillState R O),
      (inputScan ext pwallet sh sign bip rest i st).outcome = .returned .OK →
      (inputScan ext pwallet sh sign bip rest i st).signerCalls.map (fun c => c.index) =
        st.signerCalls.map (fun c => c.index) ++
          (List.range' i rest.length).filter (unsignedAt ext st.psctx.inputs) := by
  intro rest
  induction rest with
  | nil =>
    intro i st _
    have hf := outputLoop_frame ext pwallet bip st.psctx.tx.vout.length 0 st
    simp only [inputScan]
    rw [hf.2.2.2.2.1]
    simp
  | cons txin rest ih =>
    intro i st hok
    rcases inputScan_cons ext pwallet sh sign bip txin rest i st with
      ⟨_, he⟩ | ⟨input, hi, hs, he⟩ | ⟨input, _, _, _, he⟩ | ⟨input, _, _, _, _, he⟩ |
      ⟨input, hi, hu, _, _, he⟩
    · rw [he] at hok; simp at hok
    · rw [he] at hok ⊢
      rw [ih (i + 1) (begun st) hok]
      have hhead : unsignedAt ext st.psctx.inputs i = false := by
        simp [unsignedAt, hi, hs]
      simp [begun, List.range', List.filter_cons, hhead]
    · rw [he] at hok; simp at hok
    · rw [he] at hok; simp at hok
    · rw [he] at hok ⊢
      rw [ih (i + 1) _ hok]
      have ha := afterSign_frame ext hloc pwallet sh sign bip txin input i st
      have hhead : unsignedAt ext st.psctx.inputs i = true := by
        simp [unsignedAt, hi, hu]
      have htail : (List.range' (i + 1) rest.length).filter
            (unsignedAt ext (afterSign ext pwallet sh sign bip txin input i st).psctx.inputs) =
          (List.range' (i + 1) rest.length).filter (unsignedAt ext st.psctx.inputs) := by
        apply List.filter_congr
        intro j hj
        have hj1 : i + 1 ≤ j := (List.mem_range'_1.mp hj).1
        simp only [unsignedAt]
        rw [ha.2.2.2 j (by omega)]
      rw [htail]
      simp [afterSign, List.range', List.filter_cons, hhead]

/-- When every input the loop will visit is present and already signed, and
every transaction output has an entry in `outputs`, the fuelled loop returns
`OK` and has left `complete`, the signer calls, the inputs and the transaction
as they were.  Nothing is assumed of the signer. -/
theorem inputLoop_all_signed (ext : Externals K R O S) (pwallet : CWallet K) (sh : Int)
    (sign bip : Bool) :
    ∀ (fuel i : Nat) (st : FillState R O), st.psctx.tx.vin.length - i < fuel →
      st.psctx.tx.vin.length ≤ st.psctx.inputs.length →
      st.psctx.tx.vout.length ≤ st.psctx.outputs.length →
      (∀ j inp, i ≤ j → j < st.psctx.tx.vin.length → st.psctx.inputs[j]? = some inp →
        ext.PSCTInputSigned inp = true) →
      ∃ r, inputLoop ext pwallet sh sign bip fuel i st = some r ∧
        r.outcome = .returned .OK ∧ r.complete = st.complete ∧
        r.signerCalls = st.signerCalls ∧ r.psctx.inputs = st.psctx.inputs ∧
        r.psctx.tx = st.psctx.tx := by
  intro fuel
  induction fuel with
  | zero => intro i st h; omega
  | succ fuel ih =>
    intro i st hfuel hlen hout hall
    unfold inputLoop
    cases hv : st.psctx.tx.vin[i]? with
    | none =>
      have hf := outputLoop_frame ext pwallet bip st.psctx.tx.vout.length 0 st
      exact ⟨_, rfl, outputLoop_ok ext pwallet bip _ 0 st (by omega) (by omega), hf.2.2.1,
        hf.2.2.2.2.1, hf.2.1, hf.1⟩
    | some txin =>
      obtain ⟨hlt, _⟩ := List.getElem?_eq_some_iff.mp hv
      have hlt1 : i < st.psctx.inputs.length := by omega
      have hs := hall i _ (le_refl i) hlt (List.getElem?_eq_getElem hlt1)
      simp only [List.getElem?_eq_getElem hlt1, if_pos hs]
      exact ih (i + 1) _ (by simp only []; omega) hlen hout
        (fun j inp h1 h2 hget => hall j inp (by omega) h2 hget)

/-- With a local signer, a call in which no input still to visit is offending
does not return an error code. -/
theorem inputScan_no_error (ext : Externals K R O S) (hloc : SignerLocal ext)
    (pwallet : CWallet K) (sh : Int) (sign bip : Bool) :
    ∀ (rest : List CTxIn) (i : Nat) (st : FillState R O),
      (∀ j inp, i ≤ j → j < i + rest.length → st.psctx.inputs[j]? = some inp →
        ¬ Offending ext sign sh inp) →
      (inputScan ext pwallet sh sign bip rest i st).outcome = .returned .OK ∨
      (inputScan ext pwallet sh sign bip rest i st).outcome = .out_of_range := by
  intro rest
  induction rest with
  | nil =>
    intro i st _
    have hf := outputLoop_frame ext pwallet bip st.psctx.tx.vout.length 0 st
    simp only [inputScan]
    exact hf.2.2.2.2.2.1
  | cons txin rest ih =>
    intro i st hno
    simp only [List.length_cons] at hno
    rcases inputScan_cons ext pwallet sh sign bip txin rest i st with
      ⟨_, he⟩ | ⟨input, _, _, he⟩ | ⟨input, hi, hu, hsane, _⟩ | ⟨input, hi, hu, _, hm, _⟩ |
      ⟨input, _, _, _, _, he⟩
    · rw [he]; right; rfl
    · rw [he]
      exact ih (i + 1) (begun st)
        (fun j inp h1 h2 hget => hno j inp (by omega) (by omega) hget)
    · exact absurd ⟨hu, Or.inl hsane⟩ (hno i input (by omega) (by omega) hi)
    · exact absurd ⟨hu, Or.inr hm⟩ (hno i input (by omega) (by omega) hi)
    · rw [he]
      have ha := afterSign_frame ext hloc pwallet sh sign bip txin input i st
      apply ih
      intro j inp h1 h2 hget
      rw [ha.2.2.2 j (by omega)] at hget
      exact hno j inp (by omega) (by omega) hget

/-- With a local signer and fuel above the number of transaction inputs,
`FillPSCT` returns, and returns what the loop over the input list gives. -/
theorem FillPSCT_eq_inputScan (ext : Externals K R O S) (hloc : SignerLocal ext)
    (fuel : Nat) (pwallet : CWallet K) (psctx : PartiallySignedTransaction R O)
    (complete : Bool) (sh : Int) (sign bip : Bool) (hfuel : psctx.tx.vin.length < fuel) :
    FillPSCT ext fuel pwallet psctx complete sh sign bip =
      some (inputScan ext pwallet sh sign bip psctx.tx.vin 0 (initState psctx)) := by
  have h := inputLoop_eq_inputScan ext pwallet sh sign bip (fun prov p i s => (hloc prov p i s).1)
    fuel 0 (initState psctx) (by simp only [initState]; omega)
  simpa [FillPSCT, initState] using h

/-- An input is not offending exactly when, if it is not signed, it is sane and,
under `sign`, has a sighash type that is not positive or is the requested one. -/
theorem not_offending_iff (ext : Externals K R O S) (sign : Bool) (sh : Int)
    (inp : PSCTInput R) :
    ¬ Offending ext sign sh inp ↔
      (ext.PSCTInputSigned inp = false →
        ext.IsSane inp = true ∧ (sign = true → inp.sighash_type ≤ 0 ∨ inp.sighash_type = sh)) := by
  unfold Offending SighashMismatch
  constructor
  · intro h hu
    refine ⟨?_, ?_⟩
    · cases hs : ext.IsSane inp
      · exact absurd ⟨hu, Or.inl hs⟩ h
      · rfl
    · intro hsign
      by_contra hc
      apply h
      refine ⟨hu, Or.inr ⟨hsign, ?_, ?_⟩⟩
      · by_contra h0
        exact hc (Or.inl (by omega))
      · intro heq
        exact hc (Or.inr heq)
  · rintro h ⟨hu, hbad⟩
    obtain ⟨hsane, hsig⟩ := h hu
    rcases hbad with hb | ⟨hsign, hpos, hne⟩
    · rw [hsane] at hb; cases hb
    · rcases hsig hsign with h1 | h1
      · omega
      · exact hne h1

/-- An offending input at some index gives a first offending input at or before
that index. -/
theorem exists_first_offending (ext : Externals K R O S) (sign : Bool) (sh : Int)
    (l : List (PSCTInput R)) (k : Nat) (inp : PSCTInput R) (hk : l[k]? = some inp)
    (hoff : Offending ext sign sh inp) :
    ∃ k0 inp0, k0 ≤ k ∧ l[k0]? = some inp0 ∧ Offending ext sign sh inp0 ∧
      ∀ j inp1, j < k0 → l[j]? = some inp1 → ¬ Offending ext sign sh inp1 := by
  classical
  have hex : ∃ n, ∃ x, l[n]? = some x ∧ Offending ext sign sh x := ⟨k, inp, hk, hoff⟩
  obtain ⟨x, hx1, hx2⟩ := Nat.find_spec hex
  refine ⟨Nat.find hex, x, Nat.find_min' hex ⟨inp, hk, hoff⟩, hx1, hx2, ?_⟩
  intro j inp1 hj hget hoff1
  exact Nat.find_min hex hj ⟨inp1, hget, hoff1⟩

/-- An output loop that returns `OK` has found an entry in `outputs` for every
index it visited. -/
theorem outputLoop_ok_length (ext : Externals K R O S) (pwallet : CWallet K) (bip : Bool) :
    ∀ (todo i : Nat) (st : FillState R O), i ≤ st.psctx.outputs.length →
      (outputLoop ext pwallet bip todo i st).outcome = .returned .OK →
      i + todo ≤ st.psctx.outputs.length := by
  intro todo
  induction todo with
  | zero => intro i st hi _; omega
  | succ todo ih =>
    intro i st _ hok
    unfold outputLoop at hok
    cases hv : st.psctx.tx.vout[i]? with
    | none => rw [hv] at hok; simp at hok
    | some out =>
      rw [hv] at hok
      cases ho : st.psctx.outputs[i]? with
      | none => rw [ho] at hok; simp at hok
      | some psct_out =>
        rw [ho] at hok
        simp only [] at hok
        obtain ⟨hlt, _⟩ := List.getElem?_eq_some_iff.mp ho
        have h := ih (i + 1) _ (by simp only [List.length_set]; omega) hok
        simp only [List.length_set] at h
        omega

/-- With a local signer, a call that returns `OK` was given an entry in
`outputs` for every transaction output. -/
theorem inputScan_ok_outputs (ext : Externals K R O S) (hloc : SignerLocal ext)
    (pwallet : CWallet K) (sh : Int) (sign bip : Bool) :
    ∀ (rest : List CTxIn) (i : Nat) (st : FillState R O),
      (inputScan ext pwallet sh sign bip rest i st).outcome = .returned .OK →
      st.psctx.tx.vout.length ≤ st.psctx.outputs.length := by
  intro rest
  induction rest with
  | nil =>
    intro i st hok
    simp only [inputScan] at hok
    have h := outputLoop_ok_length ext pwallet bip _ 0 st (by omega) hok
    omega
  | cons txin rest ih =>
    intro i st hok
    rcases inputScan_cons ext pwallet sh sign bip txin rest i st with
      ⟨_, he⟩ | ⟨input, _, _, he⟩ | ⟨input, _, _, _, he⟩ | ⟨input, _, _, _, _, he⟩ |
      ⟨input, _, _, _, _, he⟩
    · rw [he] at hok; simp at hok
    · rw [he] at hok
      exact ih (i + 1) (begun st) hok
    · rw [he] at hok; simp at hok
    · rw [he] at hok; simp at hok
    · rw [he] at hok
      have ha := afterSign_frame ext hloc pwallet sh sign bip txin input i st
      have h := ih (i + 1) _ hok
      rw [ha.1, ha.2.1] at h
      exact h

/-- The log of signer calls only grows. -/
theorem inputScan_calls_mono (ext : Externals K R O S) (pwallet : CWallet K) (sh : Int)
    (sign bip : Bool) :
    ∀ (rest : List CTxIn) (i : Nat) (st : FillState R O),
      ∀ c ∈ st.signerCalls, c ∈ (inputScan ext pwallet sh sign bip rest i st).signerCalls := by
  intro rest
  induction rest with
  | nil =>
    intro i st c hc
    have hf := outputLoop_frame ext pwallet bip st.psctx.tx.vout.length 0 st
    simp only [inputScan]
    rw [hf.2.2.2.2.1]
    exact hc
  | cons txin rest ih =>
    intro i st c hc
    rcases inputScan_cons ext pwallet sh sign bip txin rest i st with
      ⟨_, he⟩ | ⟨input, _, _, he⟩ | ⟨input, _, _, _, he⟩ | ⟨input, _, _, _, _, he⟩ |
      ⟨input, _, _, _, _, he⟩
    · rw [he]; exact hc
    · rw [he]; exact ih (i + 1) (begun st) c hc
    · rw [he]; exact hc
    · rw [he]; exact hc
    · rw [he]
      apply ih
      simp only [afterSign, List.mem_append, List.mem_singleton]
      exact Or.inl hc

/-- With a local signer: an unsigned input `d` places ahead that is sane and
passes the sighash test, with no offending input before it, gets a signer
call. -/
theorem inputScan_call_exists (ext : Externals K R O S) (hloc : SignerLocal ext)
    (pwallet : CWallet K) (sh : Int) (sign bip : Bool) (inp : PSCTInput R) :
    ∀ (d : Nat) (rest : List CTxIn) (i : Nat) (st : FillState R O),
      d < rest.length → st.psctx.inputs[i + d]? = some inp →
      ext.PSCTInputSigned inp = false → ¬ Offending ext sign sh inp →
      (∀ j inp1, j < d → st.psctx.inputs[i + j]? = some inp1 → ¬ Offending ext sign sh inp1) →
      ∃ c ∈ (inputScan ext pwallet sh sign bip rest i st).signerCalls, c.index = i + d := by
  intro d
  induction d with
  | zero =>
    intro rest i st hd hin hu hgood _
    cases rest with
    | nil => simp at hd
    | cons t rest =>
      rw [Nat.add_zero] at hin
      simp only [Nat.add_zero]
      rcases inputScan_cons ext pwallet sh sign bip t rest i st with
        ⟨hn, _⟩ | ⟨input, hi, hs, _⟩ | ⟨input, hi, hu1, hsane, _⟩ |
        ⟨input, hi, hu1, _, hm, _⟩ | ⟨input, hi, _, _, _, he⟩
      · rw [hn] at hin; cases hin
      · rw [hi] at hin; cases hin
        rw [hu] at hs; cases hs
      · rw [hi] at hin; cases hin
        exact absurd ⟨hu1, Or.inl hsane⟩ hgood
      · rw [hi] at hin; cases hin
        exact absurd ⟨hu1, Or.inr hm⟩ hgood
      · rw [he]
        refine ⟨_, inputScan_calls_mono ext pwallet sh sign bip rest (i + 1) _
          { index := i, psctx := withUtxo ext pwallet t input i st.psctx,
            result := (ext.SignPSCTInput
              { provider := pwallet, hide_secret := !sign, hide_origin := !bip }
              (withUtxo ext pwallet t input i st.psctx) i sh).1 } ?_, rfl⟩
        simp [afterSign]
  | succ d ih =>
    intro rest i st hd hin hu hgood hbefore
    cases rest with
    | nil => simp at hd
    | cons t rest =>
      have hd1 : d < rest.length := by simpa using hd
      have hidx : i + 1 + d = i + (d + 1) := by omega
      have hnot : ∀ input, st.psctx.inputs[i]? = some input → ¬ Offending ext sign sh input :=
        fun input hi => hbefore 0 input (by omega) (by simpa using hi)
      rcases inputScan_cons ext pwallet sh sign bip t rest i st with
        ⟨hn, _⟩ | ⟨input, hi, hs, he⟩ | ⟨input, hi, hu1, hsane, _⟩ |
        ⟨input, hi, hu1, _, hm, _⟩ | ⟨input, hi, _, _, _, he⟩
      · obtain ⟨hlt, _⟩ := List.getElem?_eq_some_iff.mp hin
        have : st.psctx.inputs.length ≤ i := List.getElem?_eq_none_iff.mp hn
        omega
      · rw [he, ← hidx]
        exact ih rest (i + 1) (begun st) hd1 (by rw [hidx]; exact hin) hu hgood
          (fun j inp1 hj hget => hbefore (j + 1) inp1 (by omega)
            (by rw [show i + (j + 1) = i + 1 + j by omega]; exact hget))
      · exact absurd ⟨hu1, Or.inl hsane⟩ (hnot input hi)
      · exact absurd ⟨hu1, Or.inr hm⟩ (hnot input hi)
      · rw [he, ← hidx]
        have ha := afterSign_frame ext hloc pwallet sh sign bip t input i st
        exact ih rest (i + 1) (afterSign ext pwallet sh sign bip t input i st) hd1
          (by rw [hidx, ha.2.2.2 _ (by omega)]; exact hin) hu hgood
          (fun j inp1 hj hget => hbefore (j + 1) inp1 (by omega)
            (by
              rw [ha.2.2.2 _ (by omega)] at hget
              rw [show i + (j + 1) = i + 1 + j by omega]; exact hget))

/-- With a local signer, the PSCT handed to the signer in a call on index `k`
has the transaction, the outputs and the number of inputs of the PSCT that
`FillPSCT` received, and its inputs behind `k`. -/
theorem inputScan_calls_frame (ext : Externals K R O S) (hloc : SignerLocal ext)
    (pwallet : CWallet K) (sh : Int) (sign bip : Bool) (p0 : PartiallySignedTransaction R O) :
    ∀ (rest : List CTxIn) (i : Nat) (st : FillState R O),
      st.psctx.tx = p0.tx → st.psctx.outputs = p0.outputs →
      st.psctx.inputs.length = p0.inputs.length →
      (∀ j, i ≤ j → st.psctx.inputs[j]? = p0.inputs[j]?) →
      (∀ c ∈ st.signerCalls, c.psctx.tx = p0.tx ∧ c.psctx.outputs = p0.outputs ∧
        c.psctx.inputs.length = p0.inputs.length ∧
        ∀ j, c.index < j → c.psctx.inputs[j]? = p0.inputs[j]?) →
      ∀ c ∈ (inputScan ext pwallet sh sign bip rest i st).signerCalls,
        c.psctx.tx = p0.tx ∧ c.psctx.outputs = p0.outputs ∧
        c.psctx.inputs.length = p0.inputs.length ∧
        ∀ j, c.index < j → c.psctx.inputs[j]? = p0.inputs[j]? := by
  intro rest
  induction rest with
  | nil =>
    intro i st _ _ _ _ h
    have hf := outputLoop_frame ext pwallet bip st.psctx.tx.vout.length 0 st
    simp only [inputScan]
    rw [hf.2.2.2.2.1]
    exact h
  | cons txin rest ih =>
    intro i st htx hout hlen hin h
    rcases inputScan_cons ext pwallet sh sign bip txin rest i st with
      ⟨_, he⟩ | ⟨input, _, _, he⟩ | ⟨input, _, _, _, he⟩ | ⟨input, _, _, _, _, he⟩ |
      ⟨input, _, _, _, _, he⟩
    · rw [he]; exact h
    · rw [he]
      exact ih (i + 1) (begun st) htx hout hlen (fun j hj => hin j (by omega)) h
    · rw [he]; exact h
    · rw [he]; exact h
    · rw [he]
      have ha := afterSign_frame ext hloc pwallet sh sign bip txin input i st
      apply ih (i + 1) _ (ha.1.trans htx) (ha.2.1.trans hout) (ha.2.2.1.trans hlen)
      · intro j hj
        rw [ha.2.2.2 j (by omega)]
        exact hin j (by omega)
      · intro c hc
        simp only [afterSign, List.mem_append, List.mem_singleton] at hc
        rcases hc with hc | hc
        · exact h c hc
        · subst hc
          refine ⟨htx, hout, ?_, ?_⟩
          · simp only [withUtxo, List.length_set]; exact hlen
          · intro j hj
            simp only [] at hj
            rw [withUtxo_getElem?_ne ext pwallet txin input i j st.psctx (by omega)]
            exact hin j (by omega)

/-- With a local signer, the input that `FillPSCT` leaves at the index of a
signer call is the one the signer left there when called on the logged PSCT. -/
theorem inputScan_call_stored (ext : Externals K R O S) (hloc : SignerLocal ext)
    (pwallet : CWallet K) (sh : Int) (sign bip : Bool) :
    ∀ (rest : List CTxIn) (i : Nat) (st : FillState R O),
      (∀ c ∈ st.signerCalls, c.index < i ∧
        st.psctx.inputs[c.index]? = (ext.SignPSCTInput
          { provider := pwallet, hide_secret := !sign, hide_origin := !bip }
          c.psctx c.index sh).2.inputs[c.index]?) →
      ∀ c ∈ (inputScan ext pwallet sh sign bip rest i st).signerCalls,
        (inputScan ext pwallet sh sign bip rest i st).psctx.inputs[c.index]? =
          (ext.SignPSCTInput
            { provider := pwallet, hide_secret := !sign, hide_origin := !bip }
            c.psctx c.index sh).2.inputs[c.index]? := by
  intro rest
  induction rest with
  | nil =>
    intro i st h c hc
    have hf := outputLoop_frame ext pwallet bip st.psctx.tx.vout.length 0 st
    simp only [inputScan] at hc ⊢
    rw [hf.2.2.2.2.1] at hc
    rw [hf.2.1]
    exact (h c hc).2
  | cons txin rest ih =>
    intro i st h
    rcases inputScan_cons ext pwallet sh sign bip txin rest i st with
      ⟨_, he⟩ | ⟨input, _, _, he⟩ | ⟨input, _, _, _, he⟩ | ⟨input, _, _, _, _, he⟩ |
      ⟨input, _, _, _, _, he⟩
    · rw [he]; exact fun c hc => (h c hc).2
    · rw [he]
      exact ih (i + 1) (begun st) (fun c hc => ⟨by have := (h c hc).1; omega, (h c hc).2⟩)
    · rw [he]; exact fun c hc => (h c hc).2
    · rw [he]
      intro c hc
      have hlt := (h c hc).1
      show (withUtxo ext pwallet txin input i st.psctx).inputs[c.index]? = _
      rw [withUtxo_getElem?_ne ext pwallet txin input i c.index st.psctx (by omega)]
      exact (h c hc).2
    · rw [he]
      have ha := afterSign_frame ext hloc pwallet sh sign bip txin input i st
      apply ih (i + 1)
      intro c hc
      simp only [afterSign, List.mem_append, List.mem_singleton] at hc
      rcases hc with hc | hc
      · have hlt := (h c hc).1
        refine ⟨by omega, ?_⟩
        rw [ha.2.2.2 c.index (by omega)]
        exact (h c hc).2
      · subst hc
        exact ⟨by simp only []; omega, rfl⟩

/-- C2 as stated fails: `psctShortOutputs` has one PSCT input per transaction
input, its only input is already signed, and the signer is local, yet
`FillPSCT` does not return `OK`: `psctx.outputs.at(0)` throws
`std::out_of_range`, with any fuel. -/
theorem FillPSCT_return_code_needs_outputs :
    SignerLocal demoExt ∧
    psctShortOutputs.inputs.length = psctShortOutputs.tx.vin.length ∧
    (∀ inp ∈ psctShortOutputs.inputs, demoExt.PSCTInputSigned inp = false →
      demoExt.IsSane inp = true ∧ (inp.sighash_type ≤ 0 ∨ inp.sighash_type = 1)) ∧
    (FillPSCT demoExt 2 demoWallet psctShortOutputs false 1 true true).map
      (fun r => r.outcome) = some Outcome.out_of_range ∧
    (∀ fuel, (FillPSCT demoExt fuel demoWallet psctShortOutputs false 1 true true).map
      (fun r => r.outcome) ≠ some (Outcome.returned TransactionError.OK)) := by
  refine ⟨demoExt_signerLocal, rfl, by decide, by decide, ?_⟩
  intro fuel
  rcases fuel with _ | _ | fuel
  · decide
  · decide
  · rw [FillPSCT_eq_inputScan demoExt demoExt_signerLocal _ _ _ _ _ _ _
      (by simp [psctShortOutputs])]
    decide

/-- C2, amended: with a local signer, one PSCT input per transaction input and
fuel above the number of inputs, `FillPSCT` ends, and it returns `OK` exactly
when every input that is not signed is sane and, under `sign`, has a sighash
type that is not positive or equals the requested one, and `psctx.outputs` has
an entry for every transaction output.  When some unsigned input fails that
test, the call returns the error of the first offending input, `INVALID_PSCT`
when that input is not sane and `SIGHASH_MISMATCH` when it is, whatever
`psctx.outputs` holds.  Every error code returned is the error of an unsigned
input, and with `sign = false` the code is never `SIGHASH_MISMATCH`. -/
theorem FillPSCT_return_code (ext : Externals K R O S) (hloc : SignerLocal ext)
    (fuel : Nat) (pwallet : CWallet K) (psctx : PartiallySignedTransaction R O)
    (complete : Bool) (sh : Int) (sign bip : Bool)
    (hfuel : psctx.tx.vin.length < fuel)
    (hin : psctx.inputs.length = psctx.tx.vin.length) :
    ∃ r, FillPSCT ext fuel pwallet psctx complete sh sign bip = some r ∧
      (r.outcome = .returned .OK ↔
        (∀ inp ∈ psctx.inputs, ext.PSCTInputSigned inp = false →
          ext.IsSane inp = true ∧
            (sign = true → inp.sighash_type ≤ 0 ∨ inp.sighash_type = sh)) ∧
        psctx.tx.vout.length ≤ psctx.outputs.length) ∧
      (¬ (∀ inp ∈ psctx.inputs, ext.PSCTInputSigned inp = false →
          ext.IsSane inp = true ∧
            (sign = true → inp.sighash_type ≤ 0 ∨ inp.sighash_type = sh)) →
        ∃ (k : Nat) (inp : PSCTInput R), psctx.inputs[k]? = some inp ∧
          Offending ext sign sh inp ∧
          (∀ (j : Nat) (inp1 : PSCTInput R), j < k → psctx.inputs[j]? = some inp1 →
            ¬ Offending ext sign sh inp1) ∧
          r.outcome = .returned
            (if ext.IsSane inp = false then .INVALID_PSCT else .SIGHASH_MISMATCH)) ∧
      (∀ (k : Nat) (inp : PSCTInput R), psctx.inputs[k]? = some inp → Offending ext sign sh inp →
        (∀ (j : Nat) (inp1 : PSCTInput R), j < k → psctx.inputs[j]? = some inp1 →
          ¬ Offending ext sign sh inp1) →
        r.outcome = .returned
          (if ext.IsSane inp = false then .INVALID_PSCT else .SIGHASH_MISMATCH)) ∧
      (∀ e, r.outcome = .returned e → e ≠ .OK →
        ∃ (k : Nat) (inp : PSCTInput R), psctx.inputs[k]? = some inp ∧
          ext.PSCTInputSigned inp = false ∧
          e = (if ext.IsSane inp = false then .INVALID_PSCT else .SIGHASH_MISMATCH)) ∧
      (sign = false → r.outcome ≠ .returned .SIGHASH_MISMATCH) := by
  refine ⟨_, FillPSCT_eq_inputScan ext hloc fuel pwallet psctx complete sh sign bip hfuel, ?_⟩
  have hfirst : ∀ (k : Nat) (inp : PSCTInput R), psctx.inputs[k]? = some inp →
      Offending ext sign sh inp →
      (∀ (j : Nat) (inp1 : PSCTInput R), j < k → psctx.inputs[j]? = some inp1 →
        ¬ Offending ext sign sh inp1) →
      (inputScan ext pwallet sh sign bip psctx.tx.vin 0 (initState psctx)).outcome =
        .returned (errorOf ext inp) := by
    intro k inp hk hoff hbefore
    obtain ⟨hlt, _⟩ := List.getElem?_eq_some_iff.mp hk
    have hlt1 : k < psctx.tx.vin.length := by omega
    have h := inputScan_first_offending ext hloc pwallet sh sign bip psctx.tx.vin[k] inp k
      psctx.tx.vin 0 (initState psctx) (List.getElem?_eq_getElem hlt1)
      (by simpa [initState] using hk) hoff
      (fun j inp1 hj hget => hbefore j inp1 hj (by simpa [initState] using hget))
    exact h.1
  have hbad : ¬ (∀ inp ∈ psctx.inputs, ext.PSCTInputSigned inp = false →
        ext.IsSane inp = true ∧
          (sign = true → inp.sighash_type ≤ 0 ∨ inp.sighash_type = sh)) →
      ∃ (k : Nat) (inp : PSCTInput R), psctx.inputs[k]? = some inp ∧
        Offending ext sign sh inp ∧
        (∀ (j : Nat) (inp1 : PSCTInput R), j < k → psctx.inputs[j]? = some inp1 →
          ¬ Offending ext sign sh inp1) ∧
        (inputScan ext pwallet sh sign bip psctx.tx.vin 0 (initState psctx)).outcome =
          .returned (errorOf ext inp) := by
    intro hnot
    have hex : ∃ inp ∈ psctx.inputs, Offending ext sign sh inp := by
      by_contra hcon
      apply hnot
      intro inp hmem
      rw [← not_offending_iff]
      exact fun hoff => hcon ⟨inp, hmem, hoff⟩
    obtain ⟨inp, hmem, hoff⟩ := hex
    obtain ⟨k, hk⟩ := List.getElem?_of_mem hmem
    obtain ⟨k0, inp0, _, hk0, hoff0, hbefore⟩ :=
      exists_first_offending ext sign sh psctx.inputs k inp hk hoff
    exact ⟨k0, inp0, hk0, hoff0, hbefore, hfirst k0 inp0 hk0 hoff0 hbefore⟩
  refine ⟨?_, ?_, ?_, ?_, ?_⟩
  · constructor
    · intro hok
      refine ⟨?_, ?_⟩
      · by_contra hnot
        obtain ⟨k, inp, _, _, _, h⟩ := hbad hnot
        rw [h] at hok
        simp only [errorOf] at hok
        split at hok <;> simp at hok
      · have h := inputScan_ok_outputs ext hloc pwallet sh sign bip psctx.tx.vin 0
          (initState psctx) hok
        simpa [initState] using h
    · rintro ⟨hall, hout⟩
      apply inputScan_ok ext hloc pwallet sh sign bip
      · simp only [initState]; omega
      · exact hout
      · intro j inp _ _ hget
        rw [not_offending_iff]
        exact hall inp (List.getElem?_mem (by simpa [initState] using hget))
  · intro hnot
    obtain ⟨k, inp, h1, h2, h3, h4⟩ := hbad hnot
    exact ⟨k, inp, h1, h2, h3, h4⟩
  · intro k inp hk hoff hbefore
    rw [hfirst k inp hk hoff hbefore]
    rfl
  · intro e he hne
    have hnot : ¬ (∀ inp ∈ psctx.inputs, ext.PSCTInputSigned inp = false →
        ext.IsSane inp = true ∧
          (sign = true → inp.sighash_type ≤ 0 ∨ inp.sighash_type = sh)) := by
      intro hall
      have hno := inputScan_no_error ext hloc pwallet sh sign bip psctx.tx.vin 0
        (initState psctx) (fun j inp _ _ hget => by
          rw [not_offending_iff]
          exact hall inp (List.getElem?_mem (by simpa [initState] using hget)))
      rw [he] at hno
      rcases hno with h | h
      · exact hne (Outcome.returned.inj h)
      · cases h
    obtain ⟨k, inp, h1, h2, _, h4⟩ := hbad hnot
    rw [he] at h4
    exact ⟨k, inp, h1, h2.1, Outcome.returned.inj h4⟩
  · intro hsign
    subst hsign
    exact inputScan_no_mismatch ext pwallet sh bip _ _ _

/-- C2, amended, on `psctInsaneShort`: the second input carries both UTXOs, so
the call returns `INVALID_PSCT`, although `psctx.outputs` is empty. -/
theorem FillPSCT_return_code_witness :
    psctInsaneShort.outputs = [] ∧
    ∃ r, FillPSCT demoExt 3 demoWallet psctInsaneShort false 1 true true = some r ∧
      r.outcome = .returned .INVALID_PSCT := by
  obtain ⟨r, hr, _, _, hfirst, _⟩ := FillPSCT_return_code demoExt demoExt_signerLocal 3
    demoWallet psctInsaneShort false 1 true true (by decide) (by decide)
  refine ⟨rfl, r, hr, ?_⟩
  have h := hfirst 1 _ (by rfl) (by decide) (by
    intro j inp1 hj hget
    have hj0 : j = 0 := by omega
    subst hj0
    have : inp1 = blankInput 0 := by
      have h0 : psctInsaneShort.inputs[0]? = some (blankInput 0) := rfl
      rw [h0] at hget
      exact (Option.some.inj hget).symm
    subst this
    decide)
  exact h

/-- Whatever the signer does: when the fuelled loop returns, `complete` is the
conjunction of the flags of the recorded signer calls, and each recorded flag is
the one `SignPSCTInput` returns on the recorded arguments. -/
theorem inputLoop_calls_sound (ext : Externals K R O S) (pwallet : CWallet K) (sh : Int)
    (sign bip : Bool) :
    ∀ (fuel i : Nat) (st : FillState R O) (r : FillResult R O),
      inputLoop ext pwallet sh sign bip fuel i st = some r →
      st.complete = st.signerCalls.all (fun c => c.result) →
      (∀ c ∈ st.signerCalls, c.result = (ext.SignPSCTInput
        { provider := pwallet, hide_secret := !sign, hide_origin := !bip }
        c.psctx c.index sh).1) →
      r.complete = r.signerCalls.all (fun c => c.result) ∧
      (∀ c ∈ r.signerCalls, c.result = (ext.SignPSCTInput
        { provider := pwallet, hide_secret := !sign, hide_origin := !bip }
        c.psctx c.index sh).1) := by
  intro fuel
  induction fuel with
  | zero =>
    intro i st r h
    simp [inputLoop] at h
  | succ fuel ih =>
    intro i st r h hc hr
    unfold inputLoop at h
    cases hv : st.psctx.tx.vin[i]? with
    | none =>
      rw [hv] at h
      have hf := outputLoop_frame ext pwallet bip st.psctx.tx.vout.length 0 st
      have hre := Option.some.inj h
      subst hre
      rw [hf.2.2.1, hf.2.2.2.2.1]
      exact ⟨hc, hr⟩
    | some txin =>
      rw [hv] at h
      cases hin : st.psctx.inputs[i]? with
      | none =>
        rw [hin] at h
        have hre := Option.some.inj h
        subst hre
        exact ⟨hc, hr⟩
      | some input =>
        rw [hin] at h
        simp only [] at h
        by_cases hs : ext.PSCTInputSigned input = true
        · simp only [if_pos hs] at h
          exact ih _ _ r h hc hr
        · simp only [if_neg hs] at h
          by_cases hsane : ext.IsSane input = false
          · simp only [if_pos hsane] at h
            have hre := Option.some.inj h
            subst hre
            exact ⟨hc, hr⟩
          · simp only [if_neg hsane] at h
            split at h
            · have hre := Option.some.inj h
              subst hre
              exact ⟨hc, hr⟩
            · apply ih _ _ r h
              · simp [hc, List.all_append]
              · intro c hmem
                simp only [List.mem_append, List.mem_singleton] at hmem
                rcases hmem with hmem | hmem
                · exact hr c hmem
                · subst hmem; rfl

/-- C3 as stated fails: the transaction of `psctNoInputs` has no input, yet
`FillPSCT` does not return `OK` on it: its one output has no entry in
`psctx.outputs`, so `psctx.outputs.at(0)` throws `std::out_of_range`. -/
theorem FillPSCT_no_inputs_needs_outputs :
    psctNoInputs.tx.vin = [] ∧
    (FillPSCT demoExt 1 demoWallet psctNoInputs false 1 true true).map
      (fun r => r.outcome) = some Outcome.out_of_range ∧
    (∀ fuel, (FillPSCT demoExt fuel demoWallet psctNoInputs false 1 true true).map
      (fun r => r.outcome) ≠ some (Outcome.returned TransactionError.OK)) := by
  refine ⟨rfl, by decide, ?_⟩
  intro fuel
  rcases fuel with _ | fuel
  · decide
  · rw [FillPSCT_eq_inputScan demoExt demoExt_signerLocal _ _ _ _ _ _ _
      (by simp [psctNoInputs])]
    decide

/-- C3, amended.  The value of `complete` passed in is ignored.  Whenever
`FillPSCT` returns, whatever the signer does, `complete` is true exactly when
every signer call returned true, each recorded flag being what `SignPSCTInput`
returned.  With a local signer and enough fuel it does return, and when it
returns `OK` the signer was called on exactly the indices whose input was not
already signed.  When every transaction input has a PSCT input, every
transaction output a PSCT output, and all those inputs are already signed
(among them: when there is no transaction input), `FillPSCT` returns `OK` with
`complete = true` and no signer call, whatever the signer. -/
theorem FillPSCT_complete (ext : Externals K R O S) (fuel : Nat) (pwallet : CWallet K)
    (psctx : PartiallySignedTransaction R O) (complete : Bool) (sh : Int) (sign bip : Bool)
    (hfuel : psctx.tx.vin.length < fuel) :
    (∀ c1, FillPSCT ext fuel pwallet psctx c1 sh sign bip =
      FillPSCT ext fuel pwallet psctx complete sh sign bip) ∧
    (∀ r, FillPSCT ext fuel pwallet psctx complete sh sign bip = some r →
      (r.complete = true ↔ ∀ c ∈ r.signerCalls, c.result = true) ∧
      (∀ c ∈ r.signerCalls, c.result = (ext.SignPSCTInput
        { provider := pwallet, hide_secret := !sign, hide_origin := !bip }
        c.psctx c.index sh).1)) ∧
    (SignerLocal ext → ∃ r, FillPSCT ext fuel pwallet psctx complete sh sign bip = some r ∧
      (r.outcome = .returned .OK →
        r.signerCalls.map (fun c => c.index) =
          (List.range psctx.tx.vin.length).filter (unsignedAt ext psctx.inputs))) ∧
    (psctx.tx.vin.length ≤ psctx.inputs.length →
      psctx.tx.vout.length ≤ psctx.outputs.length →
      (∀ (j : Nat) (inp : PSCTInput R), j < psctx.tx.vin.length →
        psctx.inputs[j]? = some inp → ext.PSCTInputSigned inp = true) →
      ∃ r, FillPSCT ext fuel pwallet psctx complete sh sign bip = some r ∧
        r.outcome = .returned .OK ∧ r.complete = true ∧ r.signerCalls = []) := by
  refine ⟨fun _ => rfl, ?_, ?_, ?_⟩
  · intro r hr
    obtain ⟨h1, h2⟩ := inputLoop_calls_sound ext pwallet sh sign bip fuel 0 _ r hr
      (by simp) (by simp)
    refine ⟨?_, h2⟩
    rw [h1]
    simp [List.all_eq_true]
  · intro hloc
    refine ⟨_, FillPSCT_eq_inputScan ext hloc fuel pwallet psctx complete sh sign bip hfuel, ?_⟩
    intro hok
    rw [inputScan_call_indices ext hloc pwallet sh sign bip psctx.tx.vin 0 (initState psctx)
      hok]
    simp [initState, List.range_eq_range']
  · intro hin hout hall
    obtain ⟨r, hr, hok, hc, hcalls, _, _⟩ := inputLoop_all_signed ext pwallet sh sign bip fuel 0
      (initState psctx) (by simp only [initState]; omega) hin hout
      (fun j inp _ hj hget => hall j inp hj hget)
    exact ⟨r, hr, hok, hc, hcalls⟩

/-- C3, amended, on `psctDemo` (the signer is called on inputs 0 and 2) and on
`psctSigned` (no signer call). -/
theorem FillPSCT_complete_witness :
    (∃ r, FillPSCT demoExt 4 demoWallet psctDemo false 1 true true = some r ∧
      (r.complete = true ↔ ∀ c ∈ r.signerCalls, c.result = true) ∧
      r.signerCalls.map (fun c => c.index) = [0, 2]) ∧
    (∃ r, FillPSCT demoExt 2 demoWallet psctSigned false 1 true true = some r ∧
      r.outcome = .returned .OK ∧ r.complete = true ∧ r.signerCalls = []) := by
  constructor
  · obtain ⟨r, hr, hidx⟩ := (FillPSCT_complete demoExt 4 demoWallet psctDemo false 1
      true true (by decide)).2.2.1 demoExt_signerLocal
    have hc := ((FillPSCT_complete demoExt 4 demoWallet psctDemo false 1
      true true (by decide)).2.1 r hr).1
    refine ⟨r, hr, hc, ?_⟩
    have hev : (FillPSCT demoExt 4 demoWallet psctDemo false 1 true true).map
        (fun r => r.outcome) = some (.returned .OK) := by rfl
    rw [hr] at hev
    rw [hidx (Option.some.inj hev)]
    rfl
  · exact (FillPSCT_complete demoExt 2 demoWallet psctSigned false 1 true true
      (by decide)).2.2.2 (by decide) (by decide) (by
        intro j inp hj hget
        have hj0 : j = 0 := by
          have : j < 1 := hj
          omega
        subst hj0
        have h0 : psctSigned.inputs[0]? = some signedInput := rfl
        rw [h0] at hget
        rw [← Option.some.inj hget]
        rfl)

/-- The three cases of the UTXO fill. -/
theorem fillUtxo_cases (ext : Externals K R O S) (pwallet : CWallet K) (txin : CTxIn)
    (inp : PSCTInput R) :
    (inp.non_witness_utxo = none → ext.IsNull inp.witness_utxo = true →
      (∀ wtx, pwallet.mapWallet txin.prevout.hash = some wtx →
        fillUtxo ext pwallet txin inp = { inp with non_witness_utxo := wtx.tx }) ∧
      (pwallet.mapWallet txin.prevout.hash = none → fillUtxo ext pwallet txin inp = inp)) ∧
    (inp.non_witness_utxo ≠ none ∨ ext.IsNull inp.witness_utxo = false →
      fillUtxo ext pwallet txin inp = inp) := by
  refine ⟨fun h1 h2 => ⟨fun wtx hw => ?_, fun hw => ?_⟩, fun h => ?_⟩
  · simp [fillUtxo, h1, h2, hw]
  · simp [fillUtxo, h1, h2, hw]
  · unfold fillUtxo
    rw [if_neg]
    rintro ⟨h1, h2⟩
    rcases h with h | h
    · exact h (Option.isNone_iff_eq_none.mp h1)
    · rw [h2] at h; cases h

/-- C7: with a local signer and enough fuel `FillPSCT` ends, and every call of
`SignPSCTInput` it has made is on an input that was unsigned and sane in the
PSCT it received.  The PSCT passed to the signer has at that index the input
with `non_witness_utxo` set to the wallet's transaction for
`txin.prevout.hash` when the input had neither UTXO and the wallet holds that
hash, and the input unchanged when it had neither UTXO and the wallet does not
hold the hash, or when it already carried a UTXO; its transaction, outputs,
number of inputs and inputs behind that index are those received.  The signer
is run on exactly that PSCT: the logged flag is its return value there,
`complete` is the conjunction of those return values, and the input `FillPSCT`
leaves at the index is the one the signer left there.  Every unsigned input
that is sane, passes the sighash test and has no offending input before it
gets such a call; when `FillPSCT` returns `OK`, every unsigned input does. -/
theorem FillPSCT_utxo_fill (ext : Externals K R O S) (hloc : SignerLocal ext)
    (fuel : Nat) (pwallet : CWallet K) (psctx : PartiallySignedTransaction R O)
    (complete : Bool) (sh : Int) (sign bip : Bool)
    (hfuel : psctx.tx.vin.length < fuel) :
    ∃ r, FillPSCT ext fuel pwallet psctx complete sh sign bip = some r ∧
      (∀ c ∈ r.signerCalls, ∃ txin inp handed,
        psctx.tx.vin[c.index]? = some txin ∧ psctx.inputs[c.index]? = some inp ∧
        ext.PSCTInputSigned inp = false ∧ ext.IsSane inp = true ∧
        c.psctx.inputs[c.index]? = some handed ∧
        (inp.non_witness_utxo = none → ext.IsNull inp.witness_utxo = true →
          (∀ wtx, pwallet.mapWallet txin.prevout.hash = some wtx →
            handed = { inp with non_witness_utxo := wtx.tx }) ∧
          (pwallet.mapWallet txin.prevout.hash = none → handed = inp)) ∧
        (inp.non_witness_utxo ≠ none ∨ ext.IsNull inp.witness_utxo = false → handed = inp) ∧
        c.psctx.tx = psctx.tx ∧ c.psctx.outputs = psctx.outputs ∧
        c.psctx.inputs.length = psctx.inputs.length ∧
        (∀ j, c.index < j → c.psctx.inputs[j]? = psctx.inputs[j]?) ∧
        c.result = (ext.SignPSCTInput
          { provider := pwallet, hide_secret := !sign, hide_origin := !bip }
          c.psctx c.index sh).1 ∧
        r.psctx.inputs[c.index]? = (ext.SignPSCTInput
          { provider := pwallet, hide_secret := !sign, hide_origin := !bip }
          c.psctx c.index sh).2.inputs[c.index]?) ∧
      (r.complete = true ↔ ∀ c ∈ r.signerCalls, (ext.SignPSCTInput
        { provider := pwallet, hide_secret := !sign, hide_origin := !bip }
        c.psctx c.index sh).1 = true) ∧
      (∀ (k : Nat) (inp : PSCTInput R), k < psctx.tx.vin.length →
        psctx.inputs[k]? = some inp → ext.PSCTInputSigned inp = false →
        ext.IsSane inp = true → ¬ SighashMismatch sign sh inp →
        (∀ (j : Nat) (inp1 : PSCTInput R), j < k → psctx.inputs[j]? = some inp1 →
          ¬ Offending ext sign sh inp1) →
        ∃ c ∈ r.signerCalls, c.index = k) ∧
      (r.outcome = .returned .OK →
        ∀ (k : Nat) (inp : PSCTInput R), k < psctx.tx.vin.length →
          psctx.inputs[k]? = some inp → ext.PSCTInputSigned inp = false →
          ∃ c ∈ r.signerCalls, c.index = k) := by
  refine ⟨_, FillPSCT_eq_inputScan ext hloc fuel pwallet psctx complete sh sign bip hfuel,
    ?_, ?_, ?_, ?_⟩
  · intro c hc
    obtain ⟨txin, inp, h1, h2, h3, h4, _, h6⟩ :=
      inputScan_calls ext hloc pwallet sh sign bip psctx psctx.tx.vin 0 (initState psctx)
        (by intro d; simp) (by intro j _; rfl) (by simp [initState]) c hc
    obtain ⟨f1, f2, f3, f4⟩ :=
      inputScan_calls_frame ext hloc pwallet sh sign bip psctx psctx.tx.vin 0 (initState psctx)
        rfl rfl rfl (by intro j _; rfl) (by simp [initState]) c hc
    have hres := inputScan_call_result ext pwallet sh sign bip psctx.tx.vin 0 (initState psctx)
      (by simp [initState]) c hc
    have hst := inputScan_call_stored ext hloc pwallet sh sign bip psctx.tx.vin 0
      (initState psctx) (by simp [initState]) c hc
    exact ⟨txin, inp, _, h1, h2, h3, h4, h6, (fillUtxo_cases ext pwallet txin inp).1,
      (fillUtxo_cases ext pwallet txin inp).2, f1, f2, f3, f4, hres, hst⟩
  · rw [inputScan_complete ext pwallet sh sign bip psctx.tx.vin 0 (initState psctx)
      (by simp [initState])]
    have hres := inputScan_call_result ext pwallet sh sign bip psctx.tx.vin 0 (initState psctx)
      (by simp [initState])
    simp only [List.all_eq_true]
    constructor
    · intro h c hc
      rw [← hres c hc]
      exact h c hc
    · intro h c hc
      rw [hres c hc]
      exact h c hc
  · intro k inp hk hget hu hsane hm hbefore
    have hgood : ¬ Offending ext sign sh inp := by
      rintro ⟨_, hbad⟩
      rcases hbad with hb | hb
      · rw [hsane] at hb; cases hb
      · exact hm hb
    have h := inputScan_call_exists ext hloc pwallet sh sign bip inp k psctx.tx.vin 0
      (initState psctx) hk (by simpa [initState] using hget) hu hgood
      (fun j inp1 hj hg => hbefore j inp1 hj (by simpa [initState] using hg))
    simpa using h
  · intro hok k inp hk hget hu
    have hidx := inputScan_call_indices ext hloc pwallet sh sign bip psctx.tx.vin 0
      (initState psctx) hok
    have hmem : k ∈ (inputScan ext pwallet sh sign bip psctx.tx.vin 0
        (initState psctx)).signerCalls.map (fun c => c.index) := by
      rw [hidx]
      simp only [initState, List.map_nil, List.nil_append, List.mem_filter]
      refine ⟨List.mem_range'_1.mpr ⟨by omega, by omega⟩, ?_⟩
      simp [unsignedAt, hget, hu]
    obtain ⟨c, hc, hck⟩ := List.mem_map.mp hmem
    exact ⟨c, hc, hck⟩

/-- C7 on `psctDemo`: input 0 has no UTXO and the wallet holds the transaction
it spends.  The signer is called on it with the wallet's transaction `prevTx`
as its non-witness UTXO, which is why this signer, which signs only an input
that carries a non-witness UTXO, returns true and leaves the input signed in
the PSCT that `FillPSCT` hands back. -/
theorem FillPSCT_utxo_fill_witness :
    ∃ r, FillPSCT demoExt 4 demoWallet psctDemo false 1 true true = some r ∧
      r.psctx.inputs[0]? = some filledSigned ∧
      ∃ c ∈ r.signerCalls, c.index = 0 ∧ c.result = true ∧
        c.psctx.inputs[0]? = some { blankInput 0 with non_witness_utxo := some prevTx } := by
  obtain ⟨r, hr, hcalls, _, hreach, _⟩ := FillPSCT_utxo_fill demoExt demoExt_signerLocal 4
    demoWallet psctDemo false 1 true true (by decide)
  obtain ⟨c, hc, hc0⟩ := hreach 0 (blankInput 0) (by decide) rfl rfl rfl (by decide)
    (fun j _ hj => absurd hj (Nat.not_lt_zero j))
  obtain ⟨txin, inp, handed, h1, h2, _, _, h5, h6, _, _, _, _, _, hres, hst⟩ := hcalls c hc
  rw [hc0] at h1 h2 h5 hres hst
  have e1 : txin = spend 7 := (Option.some.inj h1).symm
  have e2 : inp = blankInput 0 := (Option.some.inj h2).symm
  subst e1 e2
  have hh : handed = { blankInput 0 with non_witness_utxo := some prevTx } :=
    (h6 rfl rfl).1 { tx := some prevTx } rfl
  subst hh
  have hsign : ∀ prov, demoExt.SignPSCTInput prov c.psctx 0 1 =
      (true, { c.psctx with inputs := c.psctx.inputs.set 0 filledSigned }) := by
    intro prov
    show demoSign prov c.psctx 0 1 = _
    unfold demoSign
    rw [h5]
    rfl
  rw [hsign] at hres hst
  obtain ⟨hlt, _⟩ := List.getElem?_eq_some_iff.mp h5
  refine ⟨r, hr, ?_, c, hc, hc0, hres, h5⟩
  rw [hst]
  simp only []
  rw [List.getElem?_set_self hlt]

/-- C8 as stated fails: on `psctMismatch`, with a local signer, `FillPSCT`
returns `SIGHASH_MISMATCH` at input 0, and input 0 is not what it was: the UTXO
fill of lines 25 to 35 ran before the sighash test of line 38 and stored the
wallet's transaction in `non_witness_utxo`. -/
theorem FillPSCT_error_input_changed :
    SignerLocal demoExt ∧
    psctMismatch.inputs[0]? = some (blankInput 2) ∧
    (FillPSCT demoExt 2 demoWallet psctMismatch false 1 true true).map
      (fun r => (r.outcome, r.psctx.inputs[0]?)) =
      some (Outcome.returned TransactionError.SIGHASH_MISMATCH,
        some { blankInput 2 with non_witness_utxo := some prevTx }) ∧
    ({ blankInput 2 with non_witness_utxo := some prevTx } : PSCTInput Bool) ≠ blankInput 2 := by
  refine ⟨demoExt_signerLocal, rfl, by decide, by decide⟩

/-- C8, amended: with a local signer and enough fuel, every input that was
signed is the same after the call, however the call ends, and the transaction
and the number of inputs stay.  When the call returns an error code, it is the
error of the first offending input, at some index `k`; then the outputs and
every input behind `k` are unchanged, and input `k` is unchanged when the
error is `INVALID_PSCT`, and is the input after the UTXO fill when the error
is `SIGHASH_MISMATCH`. -/
theorem FillPSCT_frame (ext : Externals K R O S) (hloc : SignerLocal ext)
    (fuel : Nat) (pwallet : CWallet K) (psctx : PartiallySignedTransaction R O)
    (complete : Bool) (sh : Int) (sign bip : Bool)
    (hfuel : psctx.tx.vin.length < fuel) :
    ∃ r, FillPSCT ext fuel pwallet psctx complete sh sign bip = some r ∧
      (∀ (k : Nat) (inp : PSCTInput R), psctx.inputs[k]? = some inp →
        ext.PSCTInputSigned inp = true → r.psctx.inputs[k]? = some inp) ∧
      r.psctx.tx = psctx.tx ∧ r.psctx.inputs.length = psctx.inputs.length ∧
      (∀ e, r.outcome = .returned e → e ≠ .OK →
        ∃ (k : Nat) (txin : CTxIn) (inp : PSCTInput R),
          psctx.tx.vin[k]? = some txin ∧ psctx.inputs[k]? = some inp ∧
          Offending ext sign sh inp ∧
          (∀ (j : Nat) (inp1 : PSCTInput R), j < k → psctx.inputs[j]? = some inp1 →
            ¬ Offending ext sign sh inp1) ∧
          e = errorOf ext inp ∧
          (e = .INVALID_PSCT → r.psctx.inputs[k]? = some inp) ∧
          (e = .SIGHASH_MISMATCH →
            r.psctx.inputs[k]? = some (fillUtxo ext pwallet txin inp)) ∧
          (∀ j, k < j → r.psctx.inputs[j]? = psctx.inputs[j]?) ∧
          r.psctx.outputs = psctx.outputs) := by
  refine ⟨_, FillPSCT_eq_inputScan ext hloc fuel pwallet psctx complete sh sign bip hfuel,
    ?_, ?_, ?_, ?_⟩
  · intro k inp hk hs
    exact inputScan_signed_unchanged ext hloc pwallet sh sign bip psctx.tx.vin 0
      (initState psctx) k inp (by simpa [initState] using hk) hs
  · exact (inputScan_frame ext hloc pwallet sh sign bip psctx.tx.vin 0 (initState psctx)).1
  · exact (inputScan_frame ext hloc pwallet sh sign bip psctx.tx.vin 0 (initState psctx)).2.1
  · intro e he hne
    have hex : ∃ (j : Nat) (inp : PSCTInput R), j < psctx.tx.vin.length ∧
        psctx.inputs[j]? = some inp ∧ Offending ext sign sh inp := by
      by_contra hcon
      have hno := inputScan_no_error ext hloc pwallet sh sign bip psctx.tx.vin 0
        (initState psctx) (fun j inp _ hj hget hoff =>
          hcon ⟨j, inp, by omega, by simpa [initState] using hget, hoff⟩)
      rw [he] at hno
      rcases hno with h | h
      · exact hne (Outcome.returned.inj h)
      · cases h
    obtain ⟨j, inpj, hj, hgetj, hoffj⟩ := hex
    obtain ⟨k, inp, hkj, hk, hoff, hbefore⟩ :=
      exists_first_offending ext sign sh psctx.inputs j inpj hgetj hoffj
    have hlt : k < psctx.tx.vin.length := by omega
    have h := inputScan_first_offending ext hloc pwallet sh sign bip psctx.tx.vin[k] inp k
      psctx.tx.vin 0 (initState psctx) (List.getElem?_eq_getElem hlt)
      (by simpa [initState] using hk) hoff
      (fun j inp1 hj hget => hbefore j inp1 hj (by simpa [initState] using hget))
    simp only [Nat.zero_add] at h
    obtain ⟨h1, h2, h3, h4, _, _⟩ := h
    rw [he] at h1
    have hee : e = errorOf ext inp := Outcome.returned.inj h1
    refine ⟨k, psctx.tx.vin[k], inp, List.getElem?_eq_getElem hlt, hk, hoff, hbefore, hee,
      ?_, ?_, fun j hj => h4 j hj, h2⟩
    · intro hinv
      rw [h3]
      have hs : ext.IsSane inp = false := by
        rw [hinv] at hee
        simp only [errorOf] at hee
        split at hee
        · assumption
        · cases hee
      rw [if_pos hs]
    · intro hmis
      rw [h3]
      have hs : ¬ ext.IsSane inp = false := by
        intro hs
        rw [hmis] at hee
        simp [errorOf, hs] at hee
      rw [if_neg hs]

/-- C8, amended, on `psctInsane`: the call returns `INVALID_PSCT` at input 1,
which is left as it was. -/
theorem FillPSCT_frame_witness :
    ∃ r, FillPSCT demoExt 3 demoWallet psctInsane false 1 true true = some r ∧
      r.outcome = .returned .INVALID_PSCT ∧ r.psctx.inputs[1]? = psctInsane.inputs[1]? ∧
      r.psctx.outputs = psctInsane.outputs := by
  obtain ⟨r, hr, _, _, _, herr⟩ := FillPSCT_frame demoExt demoExt_signerLocal 3 demoWallet
    psctInsane false 1 true true (by decide)
  have hev : (FillPSCT demoExt 3 demoWallet psctInsane false 1 true true).map
      (fun r => (r.outcome, r.psctx.inputs[1]?)) =
      some (.returned .INVALID_PSCT, psctInsane.inputs[1]?) := by decide
  rw [hr] at hev
  have hev1 := Option.some.inj hev
  have ho : r.outcome = .returned .INVALID_PSCT := congrArg Prod.fst hev1
  obtain ⟨k, txin, inp, _, _, _, _, _, _, _, _, hout⟩ := herr _ ho (by decide)
  exact ⟨r, hr, ho, congrArg Prod.snd hev1, hout⟩

/-- C9: with a local signer, enough fuel, a PSCT input for every transaction
input and a PSCT output for every transaction output, `FillPSCT` ends without
an out-of-range access, having begun at most `vin.size()` input iterations
and, when it returns `OK`, exactly `vin.size()` input and `vout.size()` output
iterations.  Without the precondition the access can fail: the transaction of
`psctShortInputs` has two inputs, the PSCT one, which is signed, and
`inputs.at(1)` throws. -/
theorem FillPSCT_in_range (ext : Externals K R O S) (hloc : SignerLocal ext)
    (fuel : Nat) (pwallet : CWallet K) (psctx : PartiallySignedTransaction R O)
    (complete : Bool) (sh : Int) (sign bip : Bool)
    (hfuel : psctx.tx.vin.length < fuel)
    (hin : psctx.tx.vin.length ≤ psctx.inputs.length)
    (hout : psctx.tx.vout.length ≤ psctx.outputs.length) :
    (∃ r, FillPSCT ext fuel pwallet psctx complete sh sign bip = some r ∧
      r.outcome ≠ .out_of_range ∧ r.inputIters ≤ psctx.tx.vin.length ∧
      (r.outcome = .returned .OK →
        r.inputIters = psctx.tx.vin.length ∧ r.outputIters = psctx.tx.vout.length)) ∧
    (psctShortInputs.inputs.length < psctShortInputs.tx.vin.length ∧
      (∀ inp ∈ psctShortInputs.inputs, demoExt.PSCTInputSigned inp = true) ∧
      (FillPSCT demoExt 3 demoWallet psctShortInputs false 1 true true).map
        (fun r => (r.outcome, r.inputIters)) = some (Outcome.out_of_range, 2)) := by
  refine ⟨⟨_, FillPSCT_eq_inputScan ext hloc fuel pwallet psctx complete sh sign bip hfuel,
    ?_, ?_, ?_⟩, by decide, by decide, by decide⟩
  · exact inputScan_no_throw ext hloc pwallet sh sign bip psctx.tx.vin 0 (initState psctx)
      (by simp only [initState]; omega) hout
  · have h := (inputScan_iters ext pwallet sh sign bip psctx.tx.vin 0 (initState psctx)).1
    simpa [initState] using h
  · intro hok
    have h := (inputScan_iters ext pwallet sh sign bip psctx.tx.vin 0 (initState psctx)).2 hok
    have htx := (inputScan_frame ext hloc pwallet sh sign bip psctx.tx.vin 0
      (initState psctx)).1
    rw [htx] at h
    simpa [initState] using h

/-- C9 on `psctDemo`: three input iterations and one output iteration, none
out of range. -/
theorem FillPSCT_in_range_witness :
    ∃ r, FillPSCT demoExt 4 demoWallet psctDemo false 1 true true = some r ∧
      r.outcome ≠ .out_of_range ∧ r.inputIters ≤ 3 :=
  have h := (FillPSCT_in_range demoExt demoExt_signerLocal 4 demoWallet psctDemo false 1
    true true (by decide) (by decide) (by decide)).1
  h.elim fun r hr => ⟨r, hr.1, hr.2.1, hr.2.2.1⟩

end FillPSCTTheorems

end PrivateSend
